import Mathlib

/-!
Verification of the easy-pruning message-history pruning engine.

The development shallowly embeds the TypeScript sources (src/pruner.ts aka
unnamed/part_001, src/strategies.ts, src/index.ts) into Lean:

* JS numbers are modelled by `JNum` (a rational, or one of NaN/±Infinity),
  with the IEEE comparison rules the code relies on (NaN compares false).
* JS values appearing as message roles, contents and configuration fields
  are modelled by `JVal` (null, string, number, boolean, array, object).
  JS strings are modelled by Lean `String` with `length` counting characters;
  this matches UTF-16 lengths for all BMP text, which covers every string
  constant in the sources.
* Message-list entries are `Entry`: either a non-object primitive (skipped by
  the timeline builder, exactly as `!raw || typeof raw !== "object"` skips
  them) or a message record.  Per the spec's data model a message carries a
  `role` and a `content` value; a plain-array entry behaves exactly like a
  message whose role and content are absent, so it needs no separate case.
-/

/-- A JavaScript number: a finite rational or one of NaN, +Infinity,
-Infinity.  (Doubles are modelled as exact rationals; every numeric literal
in the sources and in the configurations below is exactly representable.) -/
inductive JNum : Type
  | fin (q : ℚ)
  | inf
  | ninf
  | nan
deriving DecidableEq, Repr

namespace JNum

/-- Source `Number.isFinite`. -/
def isFinite : JNum → Bool
  | fin _ => true
  | _ => false

/-- JS `<` : false whenever either side is NaN. -/
def jlt : JNum → JNum → Bool
  | fin a, fin b => decide (a < b)
  | fin _, inf => true
  | ninf, fin _ => true
  | ninf, inf => true
  | _, _ => false

/-- JS `<=` : false whenever either side is NaN. -/
def jle : JNum → JNum → Bool
  | fin a, fin b => decide (a ≤ b)
  | fin _, inf => true
  | ninf, fin _ => true
  | ninf, inf => true
  | ninf, ninf => true
  | inf, inf => true
  | _, _ => false

/-- JS `>=`. -/
def jge (a b : JNum) : Bool := jle b a

/-- JS `>`. -/
def jgt (a b : JNum) : Bool := jlt b a

/-- JS subtraction. -/
def jsub : JNum → JNum → JNum
  | fin a, fin b => fin (a - b)
  | fin _, inf => ninf
  | fin _, ninf => inf
  | inf, fin _ => inf
  | inf, ninf => inf
  | ninf, fin _ => ninf
  | ninf, inf => ninf
  | _, _ => nan

/-- Source `Math.max` (binary): NaN if either argument is NaN. -/
def jmax : JNum → JNum → JNum
  | fin a, fin b => fin (max a b)
  | fin _, inf => inf
  | inf, fin _ => inf
  | inf, inf => inf
  | fin a, ninf => fin a
  | ninf, fin b => fin b
  | ninf, inf => inf
  | inf, ninf => inf
  | ninf, ninf => ninf
  | _, _ => nan

/-- Source `Math.floor`. -/
def jfloor : JNum → JNum
  | fin q => fin (⌊q⌋ : ℤ)
  | x => x

/-- Truncation toward zero, as JS `ToIntegerOrInfinity` does for finite
numbers (used by `String.prototype.slice`). -/
def ratTrunc (q : ℚ) : ℤ :=
  if q < 0 then -(⌊-q⌋) else ⌊q⌋

/-- Display form of a number, as JS `String(n)`.  Integers print exactly as
in JS; for non-integral rationals we use a `num/den` form (only the length
of the result is ever consumed, and no claim exercises non-integral content
numbers). -/
def display : JNum → String
  | fin q => if q.den = 1 then toString q.num else toString q.num ++ "/" ++ toString q.den
  | inf => "Infinity"
  | ninf => "-Infinity"
  | nan => "NaN"

end JNum

/-- A JavaScript value, as far as the pruning core inspects values: null (or
undefined), string, number, boolean, array, object (an ordered field list,
keys assumed distinct, insertion order preserved as JS does). -/
inductive JVal : Type
  | vnull
  | vstr (s : String)
  | vnum (n : JNum)
  | vbool (b : Bool)
  | varr (elems : List JVal)
  | vobj (fields : List (String × JVal))

mutual

/-- Structural equality test for `JVal` (deriving does not handle the nested
lists). -/
def beqJ : JVal → JVal → Bool
  | .vnull, .vnull => true
  | .vstr a, .vstr b => a == b
  | .vnum a, .vnum b => decide (a = b)
  | .vbool a, .vbool b => a == b
  | .varr xs, .varr ys => beqJList xs ys
  | .vobj xs, .vobj ys => beqJFields xs ys
  | _, _ => false

/-- Elementwise `beqJ` on value lists. -/
def beqJList : List JVal → List JVal → Bool
  | [], [] => true
  | x :: xs, y :: ys => beqJ x y && beqJList xs ys
  | _, _ => false

/-- Elementwise `beqJ` on field lists. -/
def beqJFields : List (String × JVal) → List (String × JVal) → Bool
  | [], [] => true
  | (k, v) :: xs, (l, w) :: ys => k == l && beqJ v w && beqJFields xs ys
  | _, _ => false

end

mutual

theorem beqJ_iff : ∀ (a b : JVal), beqJ a b = true ↔ a = b
  | .vnull, .vnull => by simp [beqJ]
  | .vstr a, .vstr b => by simp [beqJ]
  | .vnum a, .vnum b => by simp [beqJ]
  | .vbool a, .vbool b => by simp [beqJ]
  | .varr xs, .varr ys => by simp [beqJ, beqJList_iff xs ys]
  | .vobj xs, .vobj ys => by simp [beqJ, beqJFields_iff xs ys]
  | .vnull, .vstr _ | .vnull, .vnum _ | .vnull, .vbool _ | .vnull, .varr _
  | .vnull, .vobj _ | .vstr _, .vnull | .vstr _, .vnum _ | .vstr _, .vbool _
  | .vstr _, .varr _ | .vstr _, .vobj _ | .vnum _, .vnull | .vnum _, .vstr _
  | .vnum _, .vbool _ | .vnum _, .varr _ | .vnum _, .vobj _ | .vbool _, .vnull
  | .vbool _, .vstr _ | .vbool _, .vnum _ | .vbool _, .varr _ | .vbool _, .vobj _
  | .varr _, .vnull | .varr _, .vstr _ | .varr _, .vnum _ | .varr _, .vbool _
  | .varr _, .vobj _ | .vobj _, .vnull | .vobj _, .vstr _ | .vobj _, .vnum _
  | .vobj _, .vbool _ | .vobj _, .varr _ => by simp [beqJ]

theorem beqJList_iff : ∀ (xs ys : List JVal), beqJList xs ys = true ↔ xs = ys
  | [], [] => by simp [beqJList]
  | x :: xs, y :: ys => by
      simp [beqJList, beqJ_iff x y, beqJList_iff xs ys]
  | [], _ :: _ => by simp [beqJList]
  | _ :: _, [] => by simp [beqJList]

theorem beqJFields_iff :
    ∀ (xs ys : List (String × JVal)), beqJFields xs ys = true ↔ xs = ys
  | [], [] => by simp [beqJFields]
  | (k, v) :: xs, (l, w) :: ys => by
      simp [beqJFields, beqJ_iff v w, beqJFields_iff xs ys, and_assoc]
  | [], _ :: _ => by simp [beqJFields]
  | _ :: _, [] => by simp [beqJFields]

end

instance : DecidableEq JVal := fun a b =>
  decidable_of_iff (beqJ a b = true) (beqJ_iff a b)

namespace JVal

/-- Object field lookup (`obj.k`); `none` models JS `undefined`. -/
def getField (fields : List (String × JVal)) (key : String) : Option JVal :=
  List.lookup key fields

/-- JS truthiness. -/
def jsTruthy : JVal → Bool
  | vnull => false
  | vstr s => s ≠ ""
  | vnum (.fin q) => q ≠ 0
  | vnum .nan => false
  | vnum _ => true
  | vbool b => b
  | varr _ => true
  | vobj _ => true

end JVal

/-! ## String helpers with JavaScript semantics -/

/-- The whitespace class JS `\s` / `String.prototype.trim` use, restricted to
the characters that can occur in this code base's text handling (ASCII
whitespace plus NBSP; astral/unicode spaces never occur in the sources). -/
def jsWhitespaceChar (c : Char) : Bool :=
  c = ' ' || c = '\t' || c = '\n' || c = '\r' || c = '\x0b' || c = '\x0c' ||
    c = ' '

/-- Source `trim` on a character list: strip leading and trailing whitespace. -/
def trimList (l : List Char) : List Char :=
  ((l.dropWhile jsWhitespaceChar).reverse.dropWhile jsWhitespaceChar).reverse

/-- JS `String.prototype.trim`. -/
def jsTrim (s : String) : String := String.mk (trimList s.toList)

/-- Take the first `n` characters (JS `slice(0, n)` for `0 ≤ n ≤ len`). -/
def strTake (s : String) (n : ℕ) : String := String.mk (s.toList.take n)

/-- Drop the first `n` characters (JS `slice(n)` for `0 ≤ n`). -/
def strDrop (s : String) (n : ℕ) : String := String.mk (s.toList.drop n)

/-- Substring occurrence test on character lists. -/
def containsSub (l pat : List Char) : Bool :=
  (List.range (l.length + 1)).any fun i => pat.isPrefixOf (l.drop i)

/-- JS `String.prototype.includes`. -/
def strContains (s pat : String) : Bool := containsSub s.toList pat.toList

/-- JS `String.prototype.toLowerCase` (ASCII; every string the code lowers is
ASCII apart from CJK characters, which lower-case to themselves). -/
def toLowerStr (s : String) : String := String.mk (s.toList.map Char.toLower)

/-- JS `String.prototype.lastIndexOf`: the greatest index at which `pat`
occurs in `s`, if any. -/
def lastIndexOfStr (s pat : String) : Option ℕ :=
  ((List.range (s.length + 1)).filter fun i =>
    pat.toList.isPrefixOf (s.toList.drop i)).getLast?

/-- Index of the last `'\n'` in a character list, if any. -/
def lastNewlinePos (l : List Char) : Option ℕ :=
  ((List.range l.length).filter fun i => l.getD i ' ' = '\n').getLast?

/-- Splitter for the regex `/\n\s*\n/g`: a (leftmost, greedy) match is a
newline, a run of whitespace, and a final newline; splitting yields the
pieces between consecutive matches, exactly as `String.prototype.split`. -/
def splitBlankAux (acc : List Char) : List Char → List (List Char)
  | [] => [acc.reverse]
  | c :: rest =>
    if c = '\n' then
      match lastNewlinePos (rest.takeWhile jsWhitespaceChar) with
      | some k => acc.reverse :: splitBlankAux [] (rest.drop (k + 1))
      | none => splitBlankAux (c :: acc) rest
    else splitBlankAux (c :: acc) rest
termination_by l => l.length
decreasing_by
  · simp only [List.length_drop, List.length_cons]
    omega
  · simp only [List.length_cons]
    omega
  · simp only [List.length_cons]
    omega

/-- JS `text.split(/\n\s*\n/g)`. -/
def splitOnBlankLine (s : String) : List String :=
  (splitBlankAux [] s.toList).map String.mk

/-! ## JSON serialization (`JSON.stringify`) -/

/-- JSON string escaping for one character. -/
def jsonEscapeChar (c : Char) : String :=
  if c = '"' then "\\\""
  else if c = '\\' then "\\\\"
  else if c = '\n' then "\\n"
  else if c = '\r' then "\\r"
  else if c = '\t' then "\\t"
  else if c = '\x08' then "\\b"
  else if c = '\x0c' then "\\f"
  else if c.toNat < 32 then
    "\\u00" ++ String.mk [Nat.digitChar (c.toNat / 16), Nat.digitChar (c.toNat % 16)]
  else String.mk [c]

/-- JSON string-body escaping. -/
def jsonEscape (s : String) : String :=
  String.join (s.toList.map jsonEscapeChar)

/-- Number serialization inside `JSON.stringify` (non-finite becomes
`null`). -/
def jsonNum : JNum → String
  | .fin q => (JNum.fin q).display
  | _ => "null"

mutual

/-- Source `JSON.stringify` on the value model.  With acyclic values it never
throws, so the `catch` fallbacks guarding it in the sources are dead. -/
def jsonStringify : JVal → String
  | .vnull => "null"
  | .vstr s => "\"" ++ jsonEscape s ++ "\""
  | .vnum n => jsonNum n
  | .vbool b => cond b "true" "false"
  | .varr xs => "[" ++ jsonStringifyList xs ++ "]"
  | .vobj fs => "\x7b" ++ jsonStringifyFields fs ++ "\x7d"

/-- Comma-joined serialization of array elements. -/
def jsonStringifyList : List JVal → String
  | [] => ""
  | [x] => jsonStringify x
  | x :: xs => jsonStringify x ++ "," ++ jsonStringifyList xs

/-- Comma-joined serialization of object fields (insertion order). -/
def jsonStringifyFields : List (String × JVal) → String
  | [] => ""
  | [(k, v)] => "\"" ++ jsonEscape k ++ "\":" ++ jsonStringify v
  | (k, v) :: fs =>
      "\"" ++ jsonEscape k ++ "\":" ++ jsonStringify v ++ "," ++ jsonStringifyFields fs

end

mutual

/-- JS `String(v)` conversion.  (`vnull` renders as for `null`; the sources
only ever stringify values that were guarded by `?? ""` or a truthiness
check, so the null/undefined display difference is unobservable.) -/
def jsToString : JVal → String
  | .vnull => "null"
  | .vstr s => s
  | .vnum n => n.display
  | .vbool b => cond b "true" "false"
  | .varr xs => jsToStringList xs
  | .vobj _ => "[object Object]"

/-- Source `Array.prototype.toString`: elements joined by commas, null rendering
empty. -/
def jsToStringList : List JVal → String
  | [] => ""
  | [.vnull] => ""
  | [x] => jsToString x
  | .vnull :: xs => "," ++ jsToStringList xs
  | x :: xs => jsToString x ++ "," ++ jsToStringList xs

end

/-! ## Configuration (`EasyPruningConfig`, `normalizeConfig`) -/

/-- The `soft_trim` sub-record of the configuration. -/
structure SoftTrimConfig where
  max_chars : JNum
  head_chars : JNum
  tail_chars : JNum
deriving DecidableEq

/-- Source `EasyPruningConfig`.  Numeric fields are JS numbers; the legacy typo
alias and the advisory hint are optional keys carried through the spread;
`skip_tools_with_images` is carried through the spread unsanitized, so it is
kept as a raw value and consumed by truthiness. -/
structure EasyPruningConfig where
  pruning_threshold : JNum
  trigger_every_n_tokens : JNum
  keep_recent_tokens : JNum
  keep_recent_messages : JNum
  keep_rencent_message : Option JVal := Option.none
  soft_threshold : JNum
  hard_threshold : JNum
  detail_threshold : JNum
  soft_trim : SoftTrimConfig
  hard_clear_placeholder : String
  detail_placeholder : String
  skip_tools_with_images : JVal
  compaction_threshold_hint : Option JVal := Option.none
deriving DecidableEq

/-- Source `defaultConfig` from src/index.ts. -/
def defaultConfig : EasyPruningConfig where
  pruning_threshold := .fin 80000
  trigger_every_n_tokens := .fin 5000
  keep_recent_tokens := .fin 10000
  keep_recent_messages := .fin 10
  soft_threshold := .fin (7 / 10)
  hard_threshold := .fin (85 / 100)
  detail_threshold := .fin (95 / 100)
  soft_trim := { max_chars := .fin 4000, head_chars := .fin 1500, tail_chars := .fin 1500 }
  hard_clear_placeholder := "[Old tool result content cleared]"
  detail_placeholder := "[Detailed execution context pruned to save tokens]"
  skip_tools_with_images := .vbool true

/-- Raw (caller-supplied) `soft_trim`: a partial record whose present fields
may hold arbitrary values. -/
structure RawSoftTrim where
  max_chars : Option JVal := Option.none
  head_chars : Option JVal := Option.none
  tail_chars : Option JVal := Option.none
deriving DecidableEq

/-- Raw caller-supplied configuration (`Partial<EasyPruningConfig>`): every
field optional, present fields holding arbitrary values ("any input
shape"). -/
structure RawConfig where
  pruning_threshold : Option JVal := Option.none
  trigger_every_n_tokens : Option JVal := Option.none
  keep_recent_tokens : Option JVal := Option.none
  keep_recent_messages : Option JVal := Option.none
  keep_rencent_message : Option JVal := Option.none
  soft_threshold : Option JVal := Option.none
  hard_threshold : Option JVal := Option.none
  detail_threshold : Option JVal := Option.none
  soft_trim : Option RawSoftTrim := Option.none
  hard_clear_placeholder : Option JVal := Option.none
  detail_placeholder : Option JVal := Option.none
  skip_tools_with_images : Option JVal := Option.none
  compaction_threshold_hint : Option JVal := Option.none
deriving DecidableEq

/-- Source `safePositiveInt(value, fallback)`: fallback unless the value is a
finite number `> 0`, else `Math.floor(value)` (`Number.isFinite` is false on
every non-number). -/
def safePositiveInt (value : JVal) (fallback : JNum) : JNum :=
  match value with
  | .vnum (.fin q) => if q ≤ 0 then fallback else .fin (⌊q⌋ : ℤ)
  | _ => fallback

/-- Source `safeNonNegativeNumber(value, fallback)`. -/
def safeNonNegativeNumber (value : JVal) (fallback : JNum) : JNum :=
  match value with
  | .vnum (.fin q) => if q < 0 then fallback else .fin q
  | _ => fallback

/-- The object-spread value of one field: the input's value when the key is
present, otherwise the default. -/
def spreadVal (input : Option JVal) (dflt : JVal) : JVal := input.getD dflt

/-- Source `String(v || dflt)` as used for the placeholder strings. -/
def stringOrDefault (v : JVal) (dflt : String) : String :=
  if v.jsTruthy then jsToString v else jsToString (.vstr dflt)

/-- Source `normalizeConfig(defaults, raw)` from src/pruner.ts. -/
def normalizeConfig (defaults : EasyPruningConfig) (raw : Option RawConfig) :
    EasyPruningConfig :=
  let input := raw.getD {}
  let keepRecentMessagesRaw : JNum :=
    match input.keep_recent_messages with
    | some (.vnum n) => n
    | _ =>
      match input.keep_rencent_message with
      | some (.vnum n) => n
      | _ => defaults.keep_recent_messages
  let st := input.soft_trim.getD {}
  { pruning_threshold :=
      safePositiveInt (spreadVal input.pruning_threshold (.vnum defaults.pruning_threshold))
        defaults.pruning_threshold
    trigger_every_n_tokens :=
      safePositiveInt
        (spreadVal input.trigger_every_n_tokens (.vnum defaults.trigger_every_n_tokens))
        defaults.trigger_every_n_tokens
    keep_recent_tokens :=
      safePositiveInt (spreadVal input.keep_recent_tokens (.vnum defaults.keep_recent_tokens))
        defaults.keep_recent_tokens
    keep_recent_messages := JNum.jmax (.fin 0) (JNum.jfloor keepRecentMessagesRaw)
    keep_rencent_message := input.keep_rencent_message <|> defaults.keep_rencent_message
    soft_threshold :=
      safeNonNegativeNumber (spreadVal input.soft_threshold (.vnum defaults.soft_threshold))
        defaults.soft_threshold
    hard_threshold :=
      safeNonNegativeNumber (spreadVal input.hard_threshold (.vnum defaults.hard_threshold))
        defaults.hard_threshold
    detail_threshold :=
      safeNonNegativeNumber (spreadVal input.detail_threshold (.vnum defaults.detail_threshold))
        defaults.detail_threshold
    soft_trim :=
      { max_chars :=
          safePositiveInt (spreadVal st.max_chars (.vnum defaults.soft_trim.max_chars))
            defaults.soft_trim.max_chars
        head_chars :=
          safePositiveInt (spreadVal st.head_chars (.vnum defaults.soft_trim.head_chars))
            defaults.soft_trim.head_chars
        tail_chars :=
          safePositiveInt (spreadVal st.tail_chars (.vnum defaults.soft_trim.tail_chars))
            defaults.soft_trim.tail_chars }
    hard_clear_placeholder :=
      stringOrDefault
        (spreadVal input.hard_clear_placeholder (.vstr defaults.hard_clear_placeholder))
        defaults.hard_clear_placeholder
    detail_placeholder :=
      stringOrDefault (spreadVal input.detail_placeholder (.vstr defaults.detail_placeholder))
        defaults.detail_placeholder
    skip_tools_with_images :=
      spreadVal input.skip_tools_with_images defaults.skip_tools_with_images
    compaction_threshold_hint :=
      input.compaction_threshold_hint <|> defaults.compaction_threshold_hint }

/-- Re-reading a normalized configuration as raw caller input (each output
field present verbatim), for stating idempotence of `normalizeConfig`. -/
def toRaw (c : EasyPruningConfig) : RawConfig where
  pruning_threshold := some (.vnum c.pruning_threshold)
  trigger_every_n_tokens := some (.vnum c.trigger_every_n_tokens)
  keep_recent_tokens := some (.vnum c.keep_recent_tokens)
  keep_recent_messages := some (.vnum c.keep_recent_messages)
  keep_rencent_message := c.keep_rencent_message
  soft_threshold := some (.vnum c.soft_threshold)
  hard_threshold := some (.vnum c.hard_threshold)
  detail_threshold := some (.vnum c.detail_threshold)
  soft_trim := some
    { max_chars := some (.vnum c.soft_trim.max_chars)
      head_chars := some (.vnum c.soft_trim.head_chars)
      tail_chars := some (.vnum c.soft_trim.tail_chars) }
  hard_clear_placeholder := some (.vstr c.hard_clear_placeholder)
  detail_placeholder := some (.vstr c.detail_placeholder)
  skip_tools_with_images := some c.skip_tools_with_images
  compaction_threshold_hint := c.compaction_threshold_hint

/-! ## Messages and degradation strategies (src/strategies.ts) -/

/-- A message record: a `role`, a `content`, and any other fields, which the
shallow copies `\x7b...message, content\x7d` preserve untouched.  `vnull`
at the role or content slot stands for JS null (or an absent field, which
all reachable uses treat the same way). -/
structure MessageLike where
  role : JVal
  content : JVal
  extra : List (String × JVal) := []
deriving DecidableEq

/-- A non-object entry of the caller's message list: skipped by the timeline
builder (`!raw || typeof raw !== "object"`) and never touched. -/
inductive PrimEntry : Type
  | pnull
  | pstr (s : String)
  | pnum (n : JNum)
  | pbool (b : Bool)
deriving DecidableEq

/-- One entry of the caller-supplied message list. -/
inductive Entry : Type
  | prim (v : PrimEntry)
  | msg (m : MessageLike)
deriving DecidableEq

/-- Source `String(message.role ?? "")`. -/
def roleOf (m : MessageLike) : String :=
  match m.role with
  | .vnull => ""
  | v => jsToString v

/-- Source `textBlock(text)`. -/
def textBlock (text : String) : JVal :=
  .vobj [("type", .vstr "text"), ("text", .vstr text)]

/-- Source `isToolResultRole`. -/
def isToolResultRole (role : String) : Bool :=
  role = "tool_result" || role = "toolResult"

/-- Source `isAssistantRole`. -/
def isAssistantRole (role : String) : Bool := role = "assistant"

mutual

/-- Source `hasImageContent(content)`. -/
def hasImageContent : JVal → Bool
  | .vstr s =>
      let lower := toLowerStr s
      strContains lower "data:image" || strContains lower ".png" || strContains lower ".jpg"
  | .varr xs => hasImageContentList xs
  | .vobj fs =>
      let t := toLowerStr
        (match JVal.getField fs "type" with
          | some .vnull => ""
          | Option.none => ""
          | some v => jsToString v)
      strContains t "image" ||
        (match JVal.getField fs "image" with | some v => v.jsTruthy | Option.none => false) ||
        (match JVal.getField fs "images" with | some v => v.jsTruthy | Option.none => false) ||
        (match JVal.getField fs "url" with
          | some (.vstr u) => strContains (toLowerStr u) "image"
          | _ => false)
  | _ => false

/-- Source `content.some(hasImageContent)`. -/
def hasImageContentList : List JVal → Bool
  | [] => false
  | x :: xs => hasImageContent x || hasImageContentList xs

end

/-- The per-block text extraction of `toUnifiedText`'s array branch: string
blocks verbatim; object blocks with `type === "text"` and a string `text`
field; everything else skipped. -/
def blockText : JVal → Option String
  | .vstr s => some s
  | .vobj fs =>
      if JVal.getField fs "type" = some (.vstr "text") then
        match JVal.getField fs "text" with
        | some (.vstr t) => some t
        | _ => Option.none
      else Option.none
  | _ => Option.none

/-- Source `toUnifiedText(content)`.  (On acyclic values `JSON.stringify` always
succeeds, so the `catch` branch is dead.) -/
def toUnifiedText : JVal → String
  | .vstr s => s
  | .varr blocks => String.intercalate "\n" (blocks.filterMap blockText)
  | v => jsonStringify v

/-- Source `preserveContentShape(original, text)`. -/
def preserveContentShape (original : JVal) (text : String) : JVal :=
  match original with
  | .vstr _ => .vstr text
  | .varr _ => .varr [textBlock text]
  | _ => .vstr text

/-- The fixed, ordered marker list of `extractFinalSummary`. -/
def summaryMarkers : List String :=
  ["Final Answer:", "Final:", "Summary:", "Conclusion:", "Answer:", "Result:",
   "Output:", "最终结论", "总结", "结论"]

/-- The marker loop of `extractFinalSummary`: for each marker in order, if it
occurs, slice from its last occurrence and trim; a non-empty result wins. -/
def findMarkerSummary (text : String) : List String → Option String
  | [] => Option.none
  | marker :: rest =>
    match lastIndexOfStr text marker with
    | some idx =>
        let sliced := jsTrim (strDrop text idx)
        if sliced.length > 0 then some sliced else findMarkerSummary text rest
    | Option.none => findMarkerSummary text rest

/-- Source `extractFinalSummary(text)`: marker loop, then the last non-empty
blank-line-delimited paragraph, else null. -/
def extractFinalSummary (text : String) : Option String :=
  match findMarkerSummary text summaryMarkers with
  | some s => some s
  | Option.none =>
    let paras := ((splitOnBlankLine text).map jsTrim).filter (fun p => p ≠ "")
    match paras.getLast? with
    | Option.none => Option.none
    | some last => if last.length > 0 then some last else Option.none

/-- Resolution of one `String.prototype.slice` index argument against a
length: NaN to 0, truncation toward zero, negative values offset from the
end, clamped to `[0, len]`. -/
def sliceIndex (v : JNum) (len : ℕ) : ℕ :=
  match v with
  | .nan => 0
  | .inf => len
  | .ninf => 0
  | .fin q =>
      let t := JNum.ratTrunc q
      if t < 0 then ((len : ℤ) + t).toNat else min len t.toNat

/-- Source `s.slice(0, e)`. -/
def jsSliceUpTo (s : String) (e : JNum) : String := strTake s (sliceIndex e s.length)

/-- Source `s.slice(start)`. -/
def jsSliceFrom (s : String) (start : JNum) : String := strDrop s (sliceIndex start s.length)

/-- Source `applySoftPruning`, with `some` marking exactly the paths that build a
fresh object (in JS: results with `next !== message`) and `none` the
identity returns. -/
def applySoftPruningO (m : MessageLike) (config : EasyPruningConfig) : Option MessageLike :=
  let role := roleOf m
  if !(isToolResultRole role) then Option.none
  else if config.skip_tools_with_images.jsTruthy && hasImageContent m.content then Option.none
  else
    let raw := toUnifiedText m.content
    if JNum.jle (.fin raw.length) config.soft_trim.max_chars then Option.none
    else
      let head := jsSliceUpTo raw (JNum.jmax (.fin 0) config.soft_trim.head_chars)
      let tail := jsSliceFrom raw
        (JNum.jmax (.fin 0)
          (JNum.jsub (.fin raw.length) (JNum.jmax (.fin 0) config.soft_trim.tail_chars)))
      let soft := head ++ "\n\n... (truncated)\n\n[Original size: " ++ toString raw.length ++
        " characters]\n" ++ tail
      some { m with content := preserveContentShape m.content soft }

/-- Source `applyHardPruning`, `some` marking fresh-object results. -/
def applyHardPruningO (m : MessageLike) (config : EasyPruningConfig) : Option MessageLike :=
  let role := roleOf m
  if !(isToolResultRole role) then Option.none
  else if config.skip_tools_with_images.jsTruthy && hasImageContent m.content then Option.none
  else some { m with content := preserveContentShape m.content config.hard_clear_placeholder }

/-- The filter predicate of `applyDetailPruning`'s assistant branch: an
object block with `type === "text"` and a string `text` field. -/
def isTextTypeBlock (b : JVal) : Bool :=
  match b with
  | .vobj fs =>
      decide (JVal.getField fs "type" = some (.vstr "text")) &&
        (match JVal.getField fs "text" with | some (.vstr _) => true | _ => false)
  | _ => false

/-- Source `applyDetailPruning`, `some` marking fresh-object results. -/
def applyDetailPruningO (m : MessageLike) (config : EasyPruningConfig) : Option MessageLike :=
  let role := roleOf m
  if role = "user" || role = "system" then Option.none
  else if isAssistantRole role then
    match m.content with
    | .vstr _ => Option.none
    | .varr blocks =>
        let textBlocks := blocks.filter isTextTypeBlock
        if textBlocks.length > 0 then some { m with content := .varr textBlocks }
        else some { m with content := .varr [textBlock config.detail_placeholder] }
    | _ => some { m with content := .vstr config.detail_placeholder }
  else if isToolResultRole role then
    if config.skip_tools_with_images.jsTruthy && hasImageContent m.content then Option.none
    else
      match extractFinalSummary (toUnifiedText m.content) with
      | some summary =>
          some { m with content :=
            preserveContentShape m.content ("[Process details pruned]\n\n" ++ summary) }
      | Option.none =>
          some { m with content := preserveContentShape m.content config.detail_placeholder }
  else Option.none

/-- Source `applySoftPruning(message, config)` as a total function on messages. -/
def applySoftPruning (m : MessageLike) (config : EasyPruningConfig) : MessageLike :=
  (applySoftPruningO m config).getD m

/-- Source `applyHardPruning(message, config)` as a total function on messages. -/
def applyHardPruning (m : MessageLike) (config : EasyPruningConfig) : MessageLike :=
  (applyHardPruningO m config).getD m

/-- Source `applyDetailPruning(message, config)` as a total function on messages. -/
def applyDetailPruning (m : MessageLike) (config : EasyPruningConfig) : MessageLike :=
  (applyDetailPruningO m config).getD m

/-! ## Token estimation and timeline (src/pruner.ts) -/

mutual

/-- Source `estimateUnknownChars(input)`: strings by length, numbers/booleans by
display length, arrays by summing children, objects by serialized length
(the serialization of an acyclic value never fails, so the 128 fallback is
dead). -/
def estimateUnknownChars : JVal → ℕ
  | .vnull => 0
  | .vstr s => s.length
  | .vnum n => n.display.length
  | .vbool b => (cond b "true" "false").length
  | .varr xs => estimateUnknownCharsList xs
  | .vobj fs => (jsonStringify (.vobj fs)).length

/-- Source `input.reduce((sum, item) => sum + estimateUnknownChars(item), 0)`. -/
def estimateUnknownCharsList : List JVal → ℕ
  | [] => 0
  | x :: xs => estimateUnknownChars x + estimateUnknownCharsList xs

end

/-- Source `estimateMessageTokens(message)`: role-label length (strings only) plus
content estimate plus a fixed overhead of 16 characters, at 4 characters per
token, rounded up (`Math.ceil(chars / 4) = (chars + 3) / 4`). -/
def estimateMessageTokens (m : MessageLike) : ℕ :=
  let roleWeight := match m.role with | .vstr s => s.length | _ => 0
  let contentWeight := estimateUnknownChars m.content
  let chars := roleWeight + contentWeight + 16
  (chars + 3) / 4

/-- Source `estimateContextTokens(messages)`: sum over the object entries. -/
def estimateContextTokens (messages : List Entry) : ℕ :=
  messages.foldl
    (fun sum e => match e with | .prim _ => sum | .msg m => sum + estimateMessageTokens m) 0

/-- Per-message timeline metadata. -/
structure MessageMeta where
  index : ℕ
  message : MessageLike
  role : String
  tokenCount : ℕ
  tokenStart : ℕ
  tokenEnd : ℕ
  tokenMid : ℚ
deriving DecidableEq

/-- The walk of `buildMessageMeta`: position counter and running token
cursor; non-object entries are skipped but still advance the position. -/
def buildMessageMetaAux : List Entry → ℕ → ℕ → List MessageMeta
  | [], _, _ => []
  | .prim _ :: rest, i, cursor => buildMessageMetaAux rest (i + 1) cursor
  | .msg m :: rest, i, cursor =>
      let tokenCount := max 1 (estimateMessageTokens m)
      { index := i
        message := m
        role := roleOf m
        tokenCount := tokenCount
        tokenStart := cursor
        tokenEnd := cursor + tokenCount
        tokenMid := (cursor : ℚ) + (tokenCount : ℚ) / 2 } ::
        buildMessageMetaAux rest (i + 1) (cursor + tokenCount)

/-- Source `buildMessageMeta(messages)`. -/
def buildMessageMeta (messages : List Entry) : List MessageMeta :=
  buildMessageMetaAux messages 0 0

/-! ## Zone classification and the pruning pass -/

/-- Source `MessageZone`. -/
inductive MessageZone : Type
  | none
  | soft
  | hard
  | detail
deriving DecidableEq

/-- Source `resolveZone(tokenMid, softStart, hardStart, detailStart)`. -/
def resolveZone (tokenMid : ℚ) (softStart hardStart detailStart : ℕ) : MessageZone :=
  if tokenMid < (softStart : ℚ) then .none
  else if tokenMid < (hardStart : ℚ) then .soft
  else if tokenMid < (detailStart : ℚ) then .hard
  else .detail

/-- Source `resolveThresholdToToken(value, totalTokens)`: 0 for non-finite or
negative values; a fraction of the total below 1; otherwise an absolute
position `Math.min(totalTokens, Math.floor(value))`. -/
def resolveThresholdToToken (value : JNum) (totalTokens : ℕ) : ℕ :=
  match value with
  | .fin q =>
      if q < 0 then 0
      else if q < 1 then (⌊(totalTokens : ℚ) * q⌋).toNat
      else min totalTokens (⌊q⌋).toNat
  | _ => 0

/-- The boundary block of `applyPruningWithStats`: resolve the three
thresholds, then force `hardStart` up to `softStart` and `detailStart` up to
`hardStart`. -/
def resolveBoundaries (config : EasyPruningConfig) (totalTokens : ℕ) : ℕ × ℕ × ℕ :=
  let softStart := resolveThresholdToToken config.soft_threshold totalTokens
  let hardStart0 := resolveThresholdToToken config.hard_threshold totalTokens
  let hardStart := if hardStart0 < softStart then softStart else hardStart0
  let detailStart0 := resolveThresholdToToken config.detail_threshold totalTokens
  let detailStart := if detailStart0 < hardStart then hardStart else detailStart0
  (softStart, hardStart, detailStart)

/-- Per-zone counters of `PruningStats`. -/
structure ZoneCounts where
  soft : ℕ
  hard : ℕ
  detail : ℕ
deriving DecidableEq

/-- Source `PruningStats`. -/
structure PruningStats where
  contextTokensBefore : ℕ
  contextTokensAfter : ℕ
  deletedTokens : ℕ
  totalMessages : ℕ
  protectedMessages : ℕ
  changedMessages : ℕ
  zoneChanged : ZoneCounts
  zoneDeletedTokens : ZoneCounts
deriving DecidableEq

/-- Add `k` to the counter of one (non-`none`) zone. -/
def bumpZone (zone : MessageZone) (zc : ZoneCounts) (k : ℕ) : ZoneCounts :=
  match zone with
  | .none => zc
  | .soft => { zc with soft := zc.soft + k }
  | .hard => { zc with hard := zc.hard + k }
  | .detail => { zc with detail := zc.detail + k }

/-- The protection-rule disjunction of `applyPruningWithStats`: user/system
role, tail by message count, tail by token position. -/
def isProtectedMeta (keepRecentMessageStartIndex keepRecentStartToken : JNum)
    (meta : MessageMeta) : Bool :=
  (meta.role == "user") || (meta.role == "system") ||
    JNum.jge (.fin (meta.index : ℚ)) keepRecentMessageStartIndex ||
    JNum.jge (.fin (meta.tokenStart : ℚ)) keepRecentStartToken

/-- Source `strategies[zone].apply(message, ...)` in option form (`some` = fresh
object, `none` = identity return). -/
def applyZoneO : MessageZone → MessageLike → EasyPruningConfig → Option MessageLike
  | .none, _, _ => Option.none
  | .soft, m, config => applySoftPruningO m config
  | .hard, m, config => applyHardPruningO m config
  | .detail, m, config => applyDetailPruningO m config

/-- One iteration of the main loop of `applyPruningWithStats`, acting on the
accumulator (working list, changed flag, stats).  `delta` is
`Math.max(0, before - after)`, which is truncated subtraction on ℕ. -/
def pruneStep (config : EasyPruningConfig) (protectedIndices : List ℕ)
    (prunableEndToken : JNum) (softStart hardStart detailStart : ℕ)
    (acc : List Entry × Bool × PruningStats) (meta : MessageMeta) :
    List Entry × Bool × PruningStats :=
  if protectedIndices.contains meta.index then acc
  else if JNum.jge (.fin meta.tokenMid) prunableEndToken then acc
  else
    match resolveZone meta.tokenMid softStart hardStart detailStart with
    | MessageZone.none => acc
    | zone =>
      match applyZoneO zone meta.message config with
      | Option.none => acc
      | some next =>
        let before := estimateMessageTokens meta.message
        let after := estimateMessageTokens next
        let delta := before - after
        (acc.1.set meta.index (.msg next), true,
          { acc.2.2 with
            changedMessages := acc.2.2.changedMessages + 1
            zoneChanged := bumpZone zone acc.2.2.zoneChanged 1
            zoneDeletedTokens := bumpZone zone acc.2.2.zoneDeletedTokens delta })

/-- The result of `applyPruningWithStats`; `changed` records whether any
strategy produced a fresh object, which is exactly what the JS caller
detects by the reference comparison `!sameArrayShallow(messages,
result.messages)`. -/
structure PruneResult where
  messages : List Entry
  stats : PruningStats
  changed : Bool
deriving DecidableEq

/-- Source `metas.length > 0 ? metas[metas.length - 1].tokenEnd : 0`, the total of
the token axis. -/
def totalTokensOf (messages : List Entry) : ℕ :=
  (((buildMessageMeta messages).getLast?).map (·.tokenEnd)).getD 0

/-- Source `keepRecentStartToken = Math.max(0, totalTokens -
config.keep_recent_tokens)`. -/
def keepRecentStartTokenOf (config : EasyPruningConfig) (messages : List Entry) : JNum :=
  JNum.jmax (.fin 0)
    (JNum.jsub (.fin (totalTokensOf messages : ℚ)) config.keep_recent_tokens)

/-- Source `keepRecentMessageStartIndex = Math.max(0, messages.length -
config.keep_recent_messages)`. -/
def keepRecentMessageStartIndexOf (config : EasyPruningConfig) (messages : List Entry) :
    JNum :=
  JNum.jmax (.fin 0)
    (JNum.jsub (.fin (messages.length : ℚ)) config.keep_recent_messages)

/-- The protection loop of `applyPruningWithStats`: the indices of the metas
any protection rule matches.  The metadata indices are pairwise distinct, so
this list's length is the size of the JS `Set`. -/
def protectedIndicesOf (config : EasyPruningConfig) (messages : List Entry) : List ℕ :=
  ((buildMessageMeta messages).filter
    (isProtectedMeta (keepRecentMessageStartIndexOf config messages)
      (keepRecentStartTokenOf config messages))).map (·.index)

/-- Source `applyPruningWithStats(messages, config)`. -/
def applyPruningWithStats (messages : List Entry) (config : EasyPruningConfig) :
    PruneResult :=
  let metas := buildMessageMeta messages
  let beforeTokens := totalTokensOf messages
  let emptyStats : PruningStats :=
    { contextTokensBefore := beforeTokens
      contextTokensAfter := beforeTokens
      deletedTokens := 0
      totalMessages := messages.length
      protectedMessages := 0
      changedMessages := 0
      zoneChanged := ⟨0, 0, 0⟩
      zoneDeletedTokens := ⟨0, 0, 0⟩ }
  if metas.isEmpty then ⟨messages, emptyStats, false⟩
  else
    let totalTokens := totalTokensOf messages
    let protectedIndices := protectedIndicesOf config messages
    let bounds := resolveBoundaries config totalTokens
    let prunableEndToken := keepRecentStartTokenOf config messages
    let init : List Entry × Bool × PruningStats :=
      (messages, false, { emptyStats with protectedMessages := protectedIndices.length })
    let res := metas.foldl
      (pruneStep config protectedIndices prunableEndToken bounds.1 bounds.2.1 bounds.2.2) init
    if res.2.1 then
      let afterTokens := estimateContextTokens res.1
      ⟨res.1,
        { res.2.2 with
          contextTokensAfter := afterTokens
          deletedTokens := res.2.2.contextTokensBefore - afterTokens }, true⟩
    else ⟨messages, res.2.2, false⟩

/-! ## Trigger/cooldown gate (`createBeforeAgentStartHandler`) -/

/-- Per-session trigger state. -/
structure SessionTriggerState where
  lastTriggerTokenCount : ℕ
  lastTriggeredAt : ℕ
  pruneCount : ℕ
deriving DecidableEq

/-- What one invocation of the hook did. -/
inductive GateAction : Type
  | emptyInput
  | belowThreshold
  | cooldownSkip
  | ran (changed : Bool)
deriving DecidableEq

/-- Outcome of one hook invocation for one session: the action taken, the
session state stored afterwards, and the messages the caller's list holds
afterwards. -/
structure GateResult where
  action : GateAction
  sessionAfter : Option SessionTriggerState
  messagesAfter : List Entry
deriving DecidableEq

/-- One invocation of the handler returned by
`createBeforeAgentStartHandler`, for a fixed session key (the process-wide
map is per-key independent).  `tokensSinceLast` is
`Math.max(0, totalTokens - lastTriggerTokenCount)`, truncated subtraction on
ℕ; `changed` is the reference-identity check
`!sameArrayShallow(messages, result.messages)`, which holds exactly when
some strategy produced a fresh object. -/
def beforeAgentStart (config : EasyPruningConfig) (messages : List Entry)
    (session : Option SessionTriggerState) (now : ℕ) : GateResult :=
  if messages.isEmpty then ⟨.emptyInput, session, messages⟩
  else
    let totalTokens := estimateContextTokens messages
    if JNum.jlt (.fin (totalTokens : ℚ)) config.pruning_threshold then
      ⟨.belowThreshold, session, messages⟩
    else
      let state := session.getD ⟨0, 0, 0⟩
      let tokensSinceLast := totalTokens - state.lastTriggerTokenCount
      if 0 < state.pruneCount ∧
          JNum.jlt (.fin (tokensSinceLast : ℚ)) config.trigger_every_n_tokens = true then
        ⟨.cooldownSkip, session, messages⟩
      else
        let result := applyPruningWithStats messages config
        let newState : SessionTriggerState :=
          { lastTriggerTokenCount := totalTokens
            lastTriggeredAt := now
            pruneCount := state.pruneCount + (if result.changed then 1 else 0) }
        ⟨.ran result.changed, some newState,
          if result.changed then result.messages else messages⟩

/-! ## Timeline lemmas -/

theorem buildMessageMetaAux_index_ge (l : List Entry) :
    ∀ (i cursor : ℕ) (meta : MessageMeta),
      meta ∈ buildMessageMetaAux l i cursor → i ≤ meta.index := by
  induction l with
  | nil => intro i c meta h; simp [buildMessageMetaAux] at h
  | cons e rest ih =>
    intro i c meta h
    cases e with
    | prim v =>
      simp only [buildMessageMetaAux] at h
      have := ih (i + 1) c meta h
      omega
    | msg m =>
      simp only [buildMessageMetaAux, List.mem_cons] at h
      rcases h with rfl | h
      · exact le_refl _
      · have := ih (i + 1) _ meta h
        omega

theorem buildMessageMetaAux_lookup (l : List Entry) :
    ∀ (i cursor : ℕ) (meta : MessageMeta), meta ∈ buildMessageMetaAux l i cursor →
      l[meta.index - i]? = some (.msg meta.message) := by
  induction l with
  | nil => intro i c meta h; simp [buildMessageMetaAux] at h
  | cons e rest ih =>
    intro i c meta h
    cases e with
    | prim v =>
      simp only [buildMessageMetaAux] at h
      have hge := buildMessageMetaAux_index_ge rest (i + 1) c meta h
      have hl := ih (i + 1) c meta h
      rw [show meta.index - i = (meta.index - (i + 1)) + 1 by omega]
      simpa using hl
    | msg m =>
      simp only [buildMessageMetaAux, List.mem_cons] at h
      rcases h with rfl | h
      · simp
      · have hge := buildMessageMetaAux_index_ge rest (i + 1) _ meta h
        have hl := ih (i + 1) _ meta h
        rw [show meta.index - i = (meta.index - (i + 1)) + 1 by omega]
        simpa using hl

theorem buildMessageMeta_lookup (messages : List Entry) (meta : MessageMeta)
    (h : meta ∈ buildMessageMeta messages) :
    messages[meta.index]? = some (.msg meta.message) := by
  have := buildMessageMetaAux_lookup messages 0 0 meta h
  simpa using this

theorem buildMessageMetaAux_role (l : List Entry) :
    ∀ (i cursor : ℕ) (meta : MessageMeta), meta ∈ buildMessageMetaAux l i cursor →
      meta.role = roleOf meta.message := by
  induction l with
  | nil => intro i c meta h; simp [buildMessageMetaAux] at h
  | cons e rest ih =>
    intro i c meta h
    cases e with
    | prim v =>
      simp only [buildMessageMetaAux] at h
      exact ih (i + 1) c meta h
    | msg m =>
      simp only [buildMessageMetaAux, List.mem_cons] at h
      rcases h with rfl | h
      · rfl
      · exact ih (i + 1) _ meta h

theorem buildMessageMetaAux_pairwise (l : List Entry) :
    ∀ (i cursor : ℕ),
      (buildMessageMetaAux l i cursor).Pairwise (fun a b => a.index < b.index) := by
  induction l with
  | nil => intro i c; simp [buildMessageMetaAux]
  | cons e rest ih =>
    intro i c
    cases e with
    | prim v => simpa only [buildMessageMetaAux] using ih (i + 1) c
    | msg m =>
      simp only [buildMessageMetaAux]
      refine List.Pairwise.cons ?_ (ih (i + 1) _)
      intro b hb
      have := buildMessageMetaAux_index_ge rest (i + 1) _ b hb
      show i < b.index
      omega

theorem buildMessageMeta_index_inj (messages : List Entry) (m₁ m₂ : MessageMeta)
    (h₁ : m₁ ∈ buildMessageMeta messages) (h₂ : m₂ ∈ buildMessageMeta messages)
    (he : m₁.index = m₂.index) : m₁ = m₂ := by
  by_contra hne
  have hp : (buildMessageMeta messages).Pairwise (fun a b => a.index ≠ b.index) :=
    (buildMessageMetaAux_pairwise messages 0 0).imp (fun hab => Nat.ne_of_lt hab)
  have hsym : Symmetric (fun (a b : MessageMeta) => a.index ≠ b.index) :=
    fun _ _ hab => fun hba => hab hba.symm
  exact (List.Pairwise.forall hsym hp) h₁ h₂ hne he

/-! ## Loop-step lemmas -/

section PruneLoop

variable (config : EasyPruningConfig) (P : List ℕ) (pe : JNum) (sb hb db : ℕ)

theorem pruneStep_eq_self (acc : List Entry × Bool × PruningStats) (meta : MessageMeta)
    (hc : meta.index ∈ P ∨ JNum.jge (.fin meta.tokenMid) pe = true ∨
      resolveZone meta.tokenMid sb hb db = .none ∨
      applyZoneO (resolveZone meta.tokenMid sb hb db) meta.message config = Option.none) :
    pruneStep config P pe sb hb db acc meta = acc := by
  unfold pruneStep
  by_cases h1 : meta.index ∈ P
  · simp [h1]
  · by_cases h2 : JNum.jge (.fin meta.tokenMid) pe = true
    · simp [h1, h2]
    · rcases hc with hc | hc | hc | hc
      · exact absurd hc h1
      · exact absurd hc h2
      · simp [h1, h2, hc]
      · cases hz : resolveZone meta.tokenMid sb hb db with
        | none => simp [h1, h2, hz]
        | soft =>
            rw [hz] at hc
            simp [h1, h2, hz, hc]
        | hard =>
            rw [hz] at hc
            simp [h1, h2, hz, hc]
        | detail =>
            rw [hz] at hc
            simp [h1, h2, hz, hc]

theorem pruneStep_fst_spec (acc : List Entry × Bool × PruningStats) (meta : MessageMeta) :
    (pruneStep config P pe sb hb db acc meta).1 = acc.1 ∨
      ∃ next, applyZoneO (resolveZone meta.tokenMid sb hb db) meta.message config = some next ∧
        (pruneStep config P pe sb hb db acc meta).1 = acc.1.set meta.index (.msg next) := by
  unfold pruneStep
  by_cases h1 : meta.index ∈ P
  · left; simp [h1]
  · by_cases h2 : JNum.jge (.fin meta.tokenMid) pe = true
    · left; simp [h1, h2]
    · cases hz : resolveZone meta.tokenMid sb hb db with
      | none => left; simp [h1, h2, hz]
      | soft =>
          cases hs : applyZoneO MessageZone.soft meta.message config with
          | none => left; simp [h1, h2, hz, hs]
          | some next =>
              right
              refine ⟨next, ?_, ?_⟩
              · rfl
              · simp [h1, h2, hz, hs]
      | hard =>
          cases hs : applyZoneO MessageZone.hard meta.message config with
          | none => left; simp [h1, h2, hz, hs]
          | some next =>
              right
              refine ⟨next, ?_, ?_⟩
              · rfl
              · simp [h1, h2, hz, hs]
      | detail =>
          cases hs : applyZoneO MessageZone.detail meta.message config with
          | none => left; simp [h1, h2, hz, hs]
          | some next =>
              right
              refine ⟨next, ?_, ?_⟩
              · rfl
              · simp [h1, h2, hz, hs]

theorem foldl_pruneStep_getElem (i : ℕ) :
    ∀ (metas : List MessageMeta) (acc : List Entry × Bool × PruningStats),
      (∀ meta ∈ metas, meta.index = i →
        meta.index ∈ P ∨ JNum.jge (.fin meta.tokenMid) pe = true ∨
          resolveZone meta.tokenMid sb hb db = .none ∨
          applyZoneO (resolveZone meta.tokenMid sb hb db) meta.message config = Option.none) →
      ((metas.foldl (pruneStep config P pe sb hb db) acc).1)[i]? = (acc.1)[i]? := by
  intro metas
  induction metas with
  | nil => intro acc _; rfl
  | cons meta rest ih =>
    intro acc hcond
    simp only [List.foldl_cons]
    rw [ih _ (fun m hm => hcond m (List.mem_cons_of_mem _ hm))]
    by_cases hi : meta.index = i
    · rw [pruneStep_eq_self config P pe sb hb db acc meta
        (hcond meta (List.mem_cons_self _ _) hi)]
    · rcases pruneStep_fst_spec config P pe sb hb db acc meta with h | ⟨next, _, h⟩
      · rw [h]
      · rw [h, List.getElem?_set_ne hi]

theorem foldl_pruneStep_shape (msgs : List Entry) :
    ∀ (metas : List MessageMeta) (acc : List Entry × Bool × PruningStats),
      (∀ meta ∈ metas, msgs[meta.index]? = some (.msg meta.message)) →
      acc.1.length = msgs.length →
      (∀ j : ℕ, (acc.1)[j]? = msgs[j]? ∨
        ∃ m next z, msgs[j]? = some (.msg m) ∧ applyZoneO z m config = some next ∧
          (acc.1)[j]? = some (.msg next)) →
      ((metas.foldl (pruneStep config P pe sb hb db) acc).1).length = msgs.length ∧
        (∀ j : ℕ, ((metas.foldl (pruneStep config P pe sb hb db) acc).1)[j]? = msgs[j]? ∨
          ∃ m next z, msgs[j]? = some (.msg m) ∧ applyZoneO z m config = some next ∧
            ((metas.foldl (pruneStep config P pe sb hb db) acc).1)[j]? = some (.msg next)) := by
  intro metas
  induction metas with
  | nil => intro acc _ hlen hinv; exact ⟨hlen, hinv⟩
  | cons meta rest ih =>
    intro acc hmem hlen hinv
    simp only [List.foldl_cons]
    have hmeta := hmem meta (List.mem_cons_self _ _)
    rcases pruneStep_fst_spec config P pe sb hb db acc meta with h | ⟨next, hnext, h⟩
    · exact ih _ (fun m hm => hmem m (List.mem_cons_of_mem _ hm)) (by rw [h, hlen])
        (fun j => by rw [h]; exact hinv j)
    · refine ih _ (fun m hm => hmem m (List.mem_cons_of_mem _ hm))
        (by rw [h, List.length_set, hlen]) ?_
      intro j
      by_cases hj : meta.index = j
      · right
        subst hj
        refine ⟨meta.message, next, _, hmeta, hnext, ?_⟩
        rw [h]
        have hlt : meta.index < acc.1.length := by
          rw [hlen]
          have := List.getElem?_eq_some.mp hmeta
          exact this.1
        exact List.getElem?_set_self hlt
      · rcases hinv j with hu | ⟨m, nx, z, hm, hz, hu⟩
        · left; rw [h, List.getElem?_set_ne hj, hu]
        · right; exact ⟨m, nx, z, hm, hz, by rw [h, List.getElem?_set_ne hj, hu]⟩

end PruneLoop

/-! ## Claim theorems -/

/-- C10: for every input list and configuration, the list returned by
`applyPruningWithStats` has exactly the same length as the input, and each
position holds either the original entry unchanged or a strategy-produced
replacement (a fresh message some zone strategy computed from the message at
that same position); no entry is removed, added, or moved. -/
theorem pruning_preserves_length_and_slots (messages : List Entry)
    (config : EasyPruningConfig) :
    ((applyPruningWithStats messages config).messages).length = messages.length ∧
      ∀ j : ℕ, ((applyPruningWithStats messages config).messages)[j]? = messages[j]? ∨
        ∃ m next z, messages[j]? = some (.msg m) ∧ applyZoneO z m config = some next ∧
          ((applyPruningWithStats messages config).messages)[j]? = some (.msg next) := by
  simp only [applyPruningWithStats]
  split
  · exact ⟨rfl, fun j => Or.inl rfl⟩
  · split
    · refine ⟨(foldl_pruneStep_shape _ _ _ _ _ _ messages _ _ ?_ rfl ?_).1,
        (foldl_pruneStep_shape _ _ _ _ _ _ messages _ _ ?_ rfl ?_).2⟩ <;>
      first
        | exact fun meta hm => buildMessageMeta_lookup messages meta hm
        | exact fun j => Or.inl rfl
    · exact ⟨rfl, fun j => Or.inl rfl⟩

/-- Helper for C1/C2: a meta whose index is protected is in the protected
index list. -/
theorem mem_protectedIndicesOf (config : EasyPruningConfig) (messages : List Entry)
    (meta : MessageMeta) (hm : meta ∈ buildMessageMeta messages)
    (hp : isProtectedMeta (keepRecentMessageStartIndexOf config messages)
      (keepRecentStartTokenOf config messages) meta = true) :
    meta.index ∈ protectedIndicesOf config messages := by
  unfold protectedIndicesOf
  exact List.mem_map_of_mem _ (List.mem_filter.mpr ⟨hm, hp⟩)

/-- Helper for C1/C2: if every meta that sits at index `i` is protected, the
output of `applyPruningWithStats` at index `i` is the input entry. -/
theorem applyPruningWithStats_unchanged_at (messages : List Entry)
    (config : EasyPruningConfig) (i : ℕ)
    (hskip : ∀ meta ∈ buildMessageMeta messages, meta.index = i →
      meta.index ∈ protectedIndicesOf config messages) :
    ((applyPruningWithStats messages config).messages)[i]? = messages[i]? := by
  simp only [applyPruningWithStats]
  split
  · rfl
  · split
    · exact foldl_pruneStep_getElem _ _ _ _ _ _ i _ _
        (fun meta hm hi => Or.inl (hskip meta hm hi))
    · rfl

/-- C1: a message whose role is exactly `system` or `user` is never altered:
each zone strategy returns it unchanged, and the pruning pass leaves any such
entry of the list untouched (it is protected unconditionally, regardless of
position or size). -/
theorem system_user_never_altered (m : MessageLike) (config : EasyPruningConfig)
    (messages : List Entry) (i : ℕ)
    (hrole : roleOf m = "system" ∨ roleOf m = "user") :
    applySoftPruning m config = m ∧ applyHardPruning m config = m ∧
      applyDetailPruning m config = m ∧
      (messages[i]? = some (.msg m) →
        ((applyPruningWithStats messages config).messages)[i]? = messages[i]?) := by
  have hsoft : applySoftPruning m config = m := by
    rcases hrole with h | h <;>
      simp [applySoftPruning, applySoftPruningO, h, isToolResultRole]
  have hhard : applyHardPruning m config = m := by
    rcases hrole with h | h <;>
      simp [applyHardPruning, applyHardPruningO, h, isToolResultRole]
  have hdetail : applyDetailPruning m config = m := by
    rcases hrole with h | h <;>
      simp [applyDetailPruning, applyDetailPruningO, h]
  refine ⟨hsoft, hhard, hdetail, fun hm => ?_⟩
  refine applyPruningWithStats_unchanged_at messages config i (fun meta hmem hi => ?_)
  have hl := buildMessageMeta_lookup messages meta hmem
  rw [hi, hm] at hl
  have hmsg : meta.message = m := by
    injection (Option.some.inj hl) with h
    exact h.symm
  have hr := buildMessageMetaAux_role messages 0 0 meta hmem
  refine mem_protectedIndicesOf config messages meta hmem ?_
  rw [hmsg] at hr
  rcases hrole with h | h <;> simp [isProtectedMeta, hr, h]

/-- Witness for C1 at a concrete system message and list. -/
theorem system_user_never_altered_witness :
    (roleOf { role := .vstr "system", content := .vstr "SOUL" } = "system" ∨
      roleOf { role := .vstr "system", content := .vstr "SOUL" } = "user") ∧
    (applySoftPruning { role := .vstr "system", content := .vstr "SOUL" } defaultConfig =
        { role := .vstr "system", content := .vstr "SOUL" } ∧
      applyHardPruning { role := .vstr "system", content := .vstr "SOUL" } defaultConfig =
        { role := .vstr "system", content := .vstr "SOUL" } ∧
      applyDetailPruning { role := .vstr "system", content := .vstr "SOUL" } defaultConfig =
        { role := .vstr "system", content := .vstr "SOUL" } ∧
      (([Entry.msg { role := .vstr "system", content := .vstr "SOUL" }])[0]? =
          some (.msg { role := .vstr "system", content := .vstr "SOUL" }) →
        ((applyPruningWithStats [Entry.msg { role := .vstr "system", content := .vstr "SOUL" }]
            defaultConfig).messages)[0]? =
          ([Entry.msg { role := .vstr "system", content := .vstr "SOUL" }])[0]?)) :=
  ⟨Or.inl rfl,
    system_user_never_altered { role := .vstr "system", content := .vstr "SOUL" }
      defaultConfig [Entry.msg { role := .vstr "system", content := .vstr "SOUL" }] 0
      (Or.inl rfl)⟩

/-- C2: the pruning pass never alters the last `keep_recent_messages`
entries by index, nor any message whose token span starts within
`keep_recent_tokens` of the end of the cumulative token axis: those slots of
the output are the input entries. -/
theorem recent_tail_never_altered (messages : List Entry) (config : EasyPruningConfig) :
    (∀ (k : ℚ) (i : ℕ), config.keep_recent_messages = .fin k →
        (messages.length : ℚ) - k ≤ (i : ℚ) →
        ((applyPruningWithStats messages config).messages)[i]? = messages[i]?) ∧
      (∀ (t : ℚ) (meta : MessageMeta), config.keep_recent_tokens = .fin t →
        meta ∈ buildMessageMeta messages →
        (totalTokensOf messages : ℚ) - t ≤ (meta.tokenStart : ℚ) →
        ((applyPruningWithStats messages config).messages)[meta.index]? =
          messages[meta.index]?) := by
  constructor
  · intro k i hk hle
    refine applyPruningWithStats_unchanged_at messages config i (fun meta hmem hi => ?_)
    refine mem_protectedIndicesOf config messages meta hmem ?_
    have hineq : max (0 : ℚ) ((messages.length : ℚ) - k) ≤ (meta.index : ℚ) := by
      rw [hi]
      exact max_le (Nat.cast_nonneg i) hle
    simp only [isProtectedMeta, keepRecentMessageStartIndexOf, hk, JNum.jsub, JNum.jmax,
      JNum.jge, JNum.jle, Bool.or_eq_true, decide_eq_true_eq]
    exact Or.inl (Or.inr hineq)
  · intro t meta hk hmem hle
    refine applyPruningWithStats_unchanged_at messages config meta.index
      (fun meta' hmem' hi => ?_)
    have heq : meta' = meta := buildMessageMeta_index_inj messages meta' meta hmem' hmem hi
    subst heq
    refine mem_protectedIndicesOf config messages meta' hmem' ?_
    have hineq : max (0 : ℚ) ((totalTokensOf messages : ℚ) - t) ≤ (meta'.tokenStart : ℚ) :=
      max_le (Nat.cast_nonneg _) hle
    simp only [isProtectedMeta, keepRecentStartTokenOf, hk, JNum.jsub, JNum.jmax,
      JNum.jge, JNum.jle, Bool.or_eq_true, decide_eq_true_eq]
    exact Or.inr hineq

/-- Witness for C2 at a one-message list with the shipped defaults. -/
theorem recent_tail_never_altered_witness :
    ((applyPruningWithStats [Entry.msg { role := .vstr "tool_result", content := .vstr "hi" }]
        defaultConfig).messages)[0]? =
      ([Entry.msg { role := .vstr "tool_result", content := .vstr "hi" }])[0]? ∧
    ((applyPruningWithStats [Entry.msg { role := .vstr "tool_result", content := .vstr "hi" }]
        defaultConfig).messages)[(0 : ℕ)]? =
      ([Entry.msg { role := .vstr "tool_result", content := .vstr "hi" }])[(0 : ℕ)]? :=
  ⟨(recent_tail_never_altered
      [Entry.msg { role := .vstr "tool_result", content := .vstr "hi" }] defaultConfig).1
      10 0 rfl (by norm_num),
    by
      have h := (recent_tail_never_altered
        [Entry.msg { role := .vstr "tool_result", content := .vstr "hi" }] defaultConfig).2
        10000
        { index := 0, message := { role := .vstr "tool_result", content := .vstr "hi" },
          role := "tool_result", tokenCount := 8, tokenStart := 0, tokenEnd := 8,
          tokenMid := 4 }
        rfl (by with_unfolding_all decide) (by with_unfolding_all decide)
      exact h⟩

/-- Monotone comparison helper: JS `<` against a fixed right side is
antitone in the left (finite) argument. -/
theorem JNum.jlt_fin_mono {x y : ℚ} (h : y ≤ x) {v : JNum}
    (hx : JNum.jlt (.fin x) v = true) : JNum.jlt (.fin y) v = true := by
  cases v <;> simp_all [JNum.jlt]
  exact lt_of_le_of_lt h hx

/-- C5: after resolution the three zone boundaries are non-decreasing
(`soft ≤ hard ≤ detail`) for every configuration, even inverted ones; a
finite threshold below 1 resolves to `⌊totalTokens * value⌋` and a finite
threshold at or above 1 resolves to `min totalTokens ⌊value⌋`, which lies in
`[0, totalTokens]`. -/
theorem zone_boundaries_monotone_and_resolution (config : EasyPruningConfig)
    (totalTokens : ℕ) :
    ((resolveBoundaries config totalTokens).1 ≤ (resolveBoundaries config totalTokens).2.1 ∧
      (resolveBoundaries config totalTokens).2.1 ≤
        (resolveBoundaries config totalTokens).2.2) ∧
      (∀ q : ℚ, 0 ≤ q → q < 1 →
        resolveThresholdToToken (.fin q) totalTokens = (⌊(totalTokens : ℚ) * q⌋).toNat) ∧
      (∀ q : ℚ, 1 ≤ q →
        resolveThresholdToToken (.fin q) totalTokens = min totalTokens (⌊q⌋).toNat ∧
          resolveThresholdToToken (.fin q) totalTokens ≤ totalTokens) := by
  refine ⟨?_, ?_, ?_⟩
  · simp only [resolveBoundaries]
    constructor <;> dsimp only <;> split <;> try split
    all_goals omega
  · intro q h0 h1
    simp [resolveThresholdToToken, not_lt.mpr h0, h1]
  · intro q h1
    have h0 : ¬ q < 0 := not_lt.mpr (le_trans zero_le_one h1)
    refine ⟨by simp [resolveThresholdToToken, h0, not_lt.mpr h1], ?_⟩
    simp only [resolveThresholdToToken, h0, if_false, not_lt.mpr h1]
    simp

/-- Witness for C5 at the shipped defaults and a 100-token axis. -/
theorem zone_boundaries_monotone_and_resolution_witness :
    ((resolveBoundaries defaultConfig 100).1 ≤ (resolveBoundaries defaultConfig 100).2.1 ∧
      (resolveBoundaries defaultConfig 100).2.1 ≤
        (resolveBoundaries defaultConfig 100).2.2) ∧
      resolveThresholdToToken (.fin (7 / 10)) 100 = (⌊(100 : ℚ) * (7 / 10)⌋).toNat ∧
      (resolveThresholdToToken (.fin 250) 100 = min 100 ((⌊(250 : ℚ)⌋).toNat) ∧
        resolveThresholdToToken (.fin 250) 100 ≤ 100) :=
  ⟨(zone_boundaries_monotone_and_resolution defaultConfig 100).1,
    (zone_boundaries_monotone_and_resolution defaultConfig 100).2.1 (7 / 10) (by norm_num)
      (by norm_num),
    (zone_boundaries_monotone_and_resolution defaultConfig 100).2.2 250 (by norm_num)⟩

/-- C3: at or above the threshold, an invocation is skipped by cooldown only
when the session's `pruneCount` is positive and the token growth since the
last trigger is below `trigger_every_n_tokens`; with `pruneCount = 0` the
pass always runs; whenever a pass runs, `lastTriggerTokenCount` is set to the
current total whether or not anything changed, and `pruneCount` is
incremented exactly when the pass produced a change. -/
theorem gate_cooldown_behavior (config : EasyPruningConfig) (messages : List Entry)
    (session : Option SessionTriggerState) (now : ℕ)
    (hne : messages ≠ [])
    (hth : JNum.jlt (.fin (estimateContextTokens messages : ℚ))
      config.pruning_threshold = false) :
    ((beforeAgentStart config messages session now).action = .cooldownSkip →
      0 < (session.getD ⟨0, 0, 0⟩).pruneCount ∧
        JNum.jlt
          (.fin ((estimateContextTokens messages : ℚ) -
            ((session.getD ⟨0, 0, 0⟩).lastTriggerTokenCount : ℚ)))
          config.trigger_every_n_tokens = true) ∧
      ((session.getD ⟨0, 0, 0⟩).pruneCount = 0 →
        (beforeAgentStart config messages session now).action =
          .ran (applyPruningWithStats messages config).changed) ∧
      (∀ b, (beforeAgentStart config messages session now).action = .ran b →
        (beforeAgentStart config messages session now).sessionAfter =
          some { lastTriggerTokenCount := estimateContextTokens messages
                 lastTriggeredAt := now
                 pruneCount := (session.getD ⟨0, 0, 0⟩).pruneCount +
                   (if b then 1 else 0) } ∧
          b = (applyPruningWithStats messages config).changed) := by
  have hemp : messages.isEmpty = false := by
    cases messages with
    | nil => exact absurd rfl hne
    | cons a l => rfl
  set T := estimateContextTokens messages with hT
  set st := session.getD ⟨0, 0, 0⟩ with hst
  by_cases hc : 0 < st.pruneCount ∧
      JNum.jlt (.fin ((T - st.lastTriggerTokenCount : ℕ) : ℚ))
        config.trigger_every_n_tokens = true
  · have hact : beforeAgentStart config messages session now =
        ⟨.cooldownSkip, session, messages⟩ := by
      unfold beforeAgentStart
      simp only [hemp, Bool.false_eq_true, if_false, ← hT, hth, ← hst]
      rw [if_pos hc]
    refine ⟨fun _ => ⟨hc.1, ?_⟩, fun h0 => absurd hc.1 (by omega), fun b hb => ?_⟩
    · refine JNum.jlt_fin_mono ?_ hc.2
      rcases le_or_lt st.lastTriggerTokenCount T with hle | hlt
      · rw [Nat.cast_sub hle]
      · rw [Nat.sub_eq_zero_of_le (le_of_lt hlt)]
        push_cast
        have : (T : ℚ) ≤ (st.lastTriggerTokenCount : ℚ) := by exact_mod_cast le_of_lt hlt
        linarith
    · rw [hact] at hb
      exact absurd hb (by simp)
  · have hact : beforeAgentStart config messages session now =
        ⟨.ran (applyPruningWithStats messages config).changed,
          some { lastTriggerTokenCount := T, lastTriggeredAt := now
                 pruneCount := st.pruneCount +
                   (if (applyPruningWithStats messages config).changed then 1 else 0) },
          if (applyPruningWithStats messages config).changed then
            (applyPruningWithStats messages config).messages
          else messages⟩ := by
      unfold beforeAgentStart
      simp only [hemp, Bool.false_eq_true, if_false, ← hT, hth, ← hst]
      rw [if_neg hc]
    refine ⟨fun h => ?_, fun _ => by rw [hact], fun b hb => ?_⟩
    · rw [hact] at h
      exact absurd h (by simp)
    · rw [hact] at hb
      simp only [GateAction.ran.injEq] at hb
      rw [hact, ← hb]
      exact ⟨rfl, rfl⟩

/-- Witness for C3: a fresh session (`pruneCount = 0`) above threshold runs
a pass. -/
theorem gate_cooldown_behavior_witness :
    (beforeAgentStart { defaultConfig with pruning_threshold := .fin 1 }
        [Entry.msg { role := .vstr "user", content := .vstr "hi" }] Option.none 5).action =
      .ran (applyPruningWithStats [Entry.msg { role := .vstr "user", content := .vstr "hi" }]
        { defaultConfig with pruning_threshold := .fin 1 }).changed :=
  (gate_cooldown_behavior { defaultConfig with pruning_threshold := .fin 1 }
      [Entry.msg { role := .vstr "user", content := .vstr "hi" }] Option.none 5
      (by simp) (by with_unfolding_all decide)).2.1 rfl

/-! ## Substring lemmas -/

theorem isPrefixOf_append_self (l r : List Char) : l.isPrefixOf (l ++ r) = true := by
  induction l with
  | nil => simp [List.isPrefixOf]
  | cons c cs ih => simp [List.isPrefixOf, ih]

theorem containsSub_middle (u pat v : List Char) :
    containsSub (u ++ (pat ++ v)) pat = true := by
  unfold containsSub
  rw [List.any_eq_true]
  refine ⟨u.length, List.mem_range.mpr ?_, ?_⟩
  · simp only [List.length_append]
    omega
  · rw [List.drop_left]
    exact isPrefixOf_append_self pat v

theorem strContains_middle (x pat y : String) : strContains (x ++ (pat ++ y)) pat = true := by
  unfold strContains
  have h : (x ++ (pat ++ y)).toList = x.toList ++ (pat.toList ++ y.toList) := by
    simp [String.toList]
  rw [h]
  exact containsSub_middle x.toList pat.toList y.toList

theorem blockText_textBlock (s : String) : blockText (textBlock s) = some s := by
  simp [blockText, textBlock, JVal.getField, List.lookup]

theorem toUnifiedText_preserveContentShape (v : JVal) (s : String) :
    toUnifiedText (preserveContentShape v s) = s := by
  cases v <;>
    simp [preserveContentShape, toUnifiedText, blockText_textBlock, String.intercalate,
      String.intercalate.go]

/-- C7 counterexample: with the shipped defaults (`skip_tools_with_images`
on), a tool-result message whose content carries an image marker is returned
unchanged by `applyHardPruning`, so its content is not the placeholder in
either shape. -/
theorem hard_pruning_image_skip_cex :
    isToolResultRole
      (roleOf { role := .vstr "tool_result", content := .vstr "see shot.png" }) = true ∧
      applyHardPruning { role := .vstr "tool_result", content := .vstr "see shot.png" }
          defaultConfig =
        { role := .vstr "tool_result", content := .vstr "see shot.png" } ∧
      (applyHardPruning { role := .vstr "tool_result", content := .vstr "see shot.png" }
          defaultConfig).content ≠ .vstr defaultConfig.hard_clear_placeholder ∧
      (applyHardPruning { role := .vstr "tool_result", content := .vstr "see shot.png" }
          defaultConfig).content ≠
        .varr [textBlock defaultConfig.hard_clear_placeholder] := by
  refine ⟨rfl, by decide, by decide, by decide⟩

/-- C7 amended: for every tool-result-role message that the image-skip check
does not exempt, `applyHardPruning` yields content exactly equal to
`hard_clear_placeholder`, reshaped to the original content's structural kind
(a plain string stays a string; a block sequence becomes a single text block
holding the placeholder). -/
theorem hard_pruning_placeholder (m : MessageLike) (config : EasyPruningConfig)
    (hrole : isToolResultRole (roleOf m) = true)
    (hskip : (config.skip_tools_with_images.jsTruthy && hasImageContent m.content) = false) :
    (applyHardPruning m config).content =
      preserveContentShape m.content config.hard_clear_placeholder ∧
      toUnifiedText ((applyHardPruning m config).content) = config.hard_clear_placeholder ∧
      (∀ s, m.content = .vstr s →
        (applyHardPruning m config).content = .vstr config.hard_clear_placeholder) ∧
      (∀ xs, m.content = .varr xs →
        (applyHardPruning m config).content =
          .varr [textBlock config.hard_clear_placeholder]) := by
  have hmain : applyHardPruning m config =
      { m with content := preserveContentShape m.content config.hard_clear_placeholder } := by
    unfold applyHardPruning applyHardPruningO
    simp [hrole, hskip]
  refine ⟨by rw [hmain], ?_, fun s hs => ?_, fun xs hxs => ?_⟩
  · rw [hmain]
    exact toUnifiedText_preserveContentShape m.content config.hard_clear_placeholder
  · rw [hmain]
    simp [preserveContentShape, hs]
  · rw [hmain]
    simp [preserveContentShape, hxs]

/-- Witness for the amended C7 at a concrete non-image tool result. -/
theorem hard_pruning_placeholder_witness :
    (applyHardPruning { role := .vstr "tool_result", content := .vstr "Long payload" }
        defaultConfig).content =
      preserveContentShape (JVal.vstr "Long payload") defaultConfig.hard_clear_placeholder ∧
      toUnifiedText ((applyHardPruning
          { role := .vstr "tool_result", content := .vstr "Long payload" }
          defaultConfig).content) = defaultConfig.hard_clear_placeholder :=
  ⟨(hard_pruning_placeholder { role := .vstr "tool_result", content := .vstr "Long payload" }
      defaultConfig rfl (by decide)).1,
    (hard_pruning_placeholder { role := .vstr "tool_result", content := .vstr "Long payload" }
      defaultConfig rfl (by decide)).2.1⟩

/-- Prefixes extend over appends on the right. -/
theorem isPrefixOf_append_ext (pat : List Char) :
    ∀ (u c : List Char), pat.isPrefixOf u = true → pat.isPrefixOf (u ++ c) = true := by
  induction pat with
  | nil => intro u c _; simp [List.isPrefixOf]
  | cons p ps ih =>
    intro u c h
    cases u with
    | nil => simp [List.isPrefixOf] at h
    | cons a as =>
      simp only [List.isPrefixOf, Bool.and_eq_true] at h ⊢
      exact ⟨h.1, ih as c h.2⟩

/-- An occurrence survives prepending on the left. -/
theorem containsSub_append_left (a l pat : List Char) (h : containsSub l pat = true) :
    containsSub (a ++ l) pat = true := by
  unfold containsSub at h ⊢
  rw [List.any_eq_true] at h ⊢
  obtain ⟨i, hi, hp⟩ := h
  refine ⟨a.length + i, List.mem_range.mpr ?_, ?_⟩
  · simp only [List.length_append]
    exact Nat.add_lt_add_left (List.mem_range.mp hi) a.length
  · rw [List.drop_append]
    exact hp

/-- An occurrence survives appending on the right. -/
theorem containsSub_append_right (l c pat : List Char) (h : containsSub l pat = true) :
    containsSub (l ++ c) pat = true := by
  unfold containsSub at h ⊢
  rw [List.any_eq_true] at h ⊢
  obtain ⟨i, hi, hp⟩ := h
  have hi' := List.mem_range.mp hi
  refine ⟨i, List.mem_range.mpr ?_, ?_⟩
  · simp only [List.length_append]
    omega
  · rw [List.drop_append_of_le_length (by omega)]
    exact isPrefixOf_append_ext pat (l.drop i) c hp

/-- An occurrence inside the middle of a three-part append. -/
theorem containsSub_inner (u v w pat : List Char) (h : containsSub v pat = true) :
    containsSub (u ++ (v ++ w)) pat = true :=
  containsSub_append_left u (v ++ w) pat (containsSub_append_right v w pat h)

theorem toList_append (s t : String) : (s ++ t).toList = s.toList ++ t.toList := by
  simp [String.toList]

/-- The soft-trim replacement text always contains the elision marker and
the original-size annotation. -/
theorem soft_text_contains (head n tail : String) :
    strContains
        (head ++ "\n\n... (truncated)\n\n[Original size: " ++ n ++ " characters]\n" ++ tail)
        "... (truncated)" = true ∧
      strContains
        (head ++ "\n\n... (truncated)\n\n[Original size: " ++ n ++ " characters]\n" ++ tail)
        ("[Original size: " ++ n ++ " characters]") = true := by
  unfold strContains
  constructor
  · rw [toList_append, toList_append, toList_append, toList_append]
    refine containsSub_append_right _ _ _ (containsSub_append_right _ _ _
      (containsSub_append_right _ _ _ (containsSub_append_left _ _ _ ?_)))
    decide
  · rw [toList_append, toList_append, toList_append, toList_append, toList_append,
      toList_append]
    have hsplitBig : ("\n\n... (truncated)\n\n[Original size: " : String).toList =
        ("\n\n... (truncated)\n\n" : String).toList ++
          ("[Original size: " : String).toList := by decide
    have hsplitC : (" characters]\n" : String).toList =
        (" characters]" : String).toList ++ ['\n'] := by decide
    rw [hsplitBig, hsplitC]
    have hshape : head.toList ++
          (("\n\n... (truncated)\n\n" : String).toList ++ ("[Original size: " : String).toList) ++
          n.toList ++ ((" characters]" : String).toList ++ ['\n']) ++ tail.toList =
        (head.toList ++ ("\n\n... (truncated)\n\n" : String).toList) ++
          ((("[Original size: " : String).toList ++ n.toList ++
            (" characters]" : String).toList) ++ (['\n'] ++ tail.toList)) := by
      simp [List.append_assoc]
    rw [hshape]
    exact containsSub_middle (head.toList ++ ("\n\n... (truncated)\n\n" : String).toList)
      (("[Original size: " : String).toList ++ n.toList ++ (" characters]" : String).toList)
      (['\n'] ++ tail.toList)

/-- C6 counterexample: with image skipping on, an oversized tool-result
message whose text carries an image marker is returned unchanged by
`applySoftPruning`, so its output does not contain the elision marker even
though the unified text exceeds `max_chars`. -/
theorem soft_pruning_image_skip_cex :
    JNum.jle
        (.fin ((toUnifiedText (JVal.vstr "img.png AAAAAAAA")).length : ℚ))
        ({ defaultConfig with
            soft_trim :=
              { max_chars := .fin 10, head_chars := .fin 2,
                tail_chars := .fin 2 } }).soft_trim.max_chars = false ∧
      applySoftPruning { role := .vstr "tool_result", content := .vstr "img.png AAAAAAAA" }
          { defaultConfig with
            soft_trim :=
              { max_chars := .fin 10, head_chars := .fin 2, tail_chars := .fin 2 } } =
        { role := .vstr "tool_result", content := .vstr "img.png AAAAAAAA" } ∧
      strContains
        (toUnifiedText
          ((applySoftPruning { role := .vstr "tool_result", content := .vstr "img.png AAAAAAAA" }
            { defaultConfig with
              soft_trim :=
                { max_chars := .fin 10, head_chars := .fin 2,
                  tail_chars := .fin 2 } }).content))
        "... (truncated)" = false := by
  refine ⟨by with_unfolding_all decide, by with_unfolding_all decide,
    by with_unfolding_all decide⟩

/-- C6 amended: on a tool-result-role message that the image-skip check does
not exempt, `applySoftPruning` is the identity when the unified text fits in
`max_chars`, and otherwise its output text contains the elision marker and
an annotation of the original size in characters. -/
theorem soft_pruning_noop_or_marker (m : MessageLike) (config : EasyPruningConfig)
    (hrole : isToolResultRole (roleOf m) = true)
    (hskip : (config.skip_tools_with_images.jsTruthy && hasImageContent m.content) = false) :
    (JNum.jle (.fin ((toUnifiedText m.content).length : ℚ)) config.soft_trim.max_chars =
        true → applySoftPruning m config = m) ∧
      (JNum.jle (.fin ((toUnifiedText m.content).length : ℚ)) config.soft_trim.max_chars =
          false →
        strContains (toUnifiedText ((applySoftPruning m config).content))
            "... (truncated)" = true ∧
          strContains (toUnifiedText ((applySoftPruning m config).content))
            ("[Original size: " ++ toString (toUnifiedText m.content).length ++
              " characters]") = true) := by
  constructor
  · intro hle
    unfold applySoftPruning applySoftPruningO
    simp [hrole, hskip, hle]
  · intro hgt
    have hmain : applySoftPruning m config =
        ⟨m.role,
          preserveContentShape m.content
            (jsSliceUpTo (toUnifiedText m.content)
                (JNum.jmax (.fin 0) config.soft_trim.head_chars) ++
              "\n\n... (truncated)\n\n[Original size: " ++
              toString (toUnifiedText m.content).length ++ " characters]\n" ++
              jsSliceFrom (toUnifiedText m.content)
                (JNum.jmax (.fin 0)
                  (JNum.jsub (.fin ((toUnifiedText m.content).length : ℚ))
                    (JNum.jmax (.fin 0) config.soft_trim.tail_chars)))),
          m.extra⟩ := by
      unfold applySoftPruning applySoftPruningO
      simp [hrole, hskip, hgt]
    rw [hmain]
    rw [show (⟨m.role, preserveContentShape m.content
            (jsSliceUpTo (toUnifiedText m.content)
                (JNum.jmax (.fin 0) config.soft_trim.head_chars) ++
              "\n\n... (truncated)\n\n[Original size: " ++
              toString (toUnifiedText m.content).length ++ " characters]\n" ++
              jsSliceFrom (toUnifiedText m.content)
                (JNum.jmax (.fin 0)
                  (JNum.jsub (.fin ((toUnifiedText m.content).length : ℚ))
                    (JNum.jmax (.fin 0) config.soft_trim.tail_chars)))),
          m.extra⟩ : MessageLike).content = preserveContentShape m.content
            (jsSliceUpTo (toUnifiedText m.content)
                (JNum.jmax (.fin 0) config.soft_trim.head_chars) ++
              "\n\n... (truncated)\n\n[Original size: " ++
              toString (toUnifiedText m.content).length ++ " characters]\n" ++
              jsSliceFrom (toUnifiedText m.content)
                (JNum.jmax (.fin 0)
                  (JNum.jsub (.fin ((toUnifiedText m.content).length : ℚ))
                    (JNum.jmax (.fin 0) config.soft_trim.tail_chars)))) from rfl]
    rw [toUnifiedText_preserveContentShape]
    exact soft_text_contains _ _ _

/-- Witness for the amended C6: an oversized non-image tool result is
rewritten with the marker and size annotation. -/
theorem soft_pruning_noop_or_marker_witness :
    strContains
        (toUnifiedText
          ((applySoftPruning { role := .vstr "tool_result", content := .vstr "ABCDEFGHIJKLMNOP" }
            { defaultConfig with
              soft_trim :=
                { max_chars := .fin 10, head_chars := .fin 2,
                  tail_chars := .fin 2 } }).content))
        "... (truncated)" = true ∧
      strContains
        (toUnifiedText
          ((applySoftPruning { role := .vstr "tool_result", content := .vstr "ABCDEFGHIJKLMNOP" }
            { defaultConfig with
              soft_trim :=
                { max_chars := .fin 10, head_chars := .fin 2,
                  tail_chars := .fin 2 } }).content))
        ("[Original size: " ++
          toString (toUnifiedText (JVal.vstr "ABCDEFGHIJKLMNOP")).length ++ " characters]") =
        true :=
  (soft_pruning_noop_or_marker
    { role := .vstr "tool_result", content := .vstr "ABCDEFGHIJKLMNOP" }
    { defaultConfig with
      soft_trim := { max_chars := .fin 10, head_chars := .fin 2, tail_chars := .fin 2 } }
    rfl (by decide)).2 (by with_unfolding_all decide)

/-- Fixture for C9: a configuration whose soft trim makes a 50-character
tool result grow (head 10 + marker overhead + tail 10 exceeds 50), with the
whole axis in the soft zone. -/
def softGrowthConfig : EasyPruningConfig :=
  { defaultConfig with
    keep_recent_tokens := .fin 1
    keep_recent_messages := .fin 0
    soft_threshold := .fin 0
    hard_threshold := .fin 1000000
    detail_threshold := .fin 1000000
    soft_trim := { max_chars := .fin 40, head_chars := .fin 10, tail_chars := .fin 10 } }

/-- Fixture for C9: one 50-character tool result. -/
def softGrowthMessages : List Entry :=
  [.msg { role := .vstr "tool_result", content := .vstr (String.mk (List.replicate 50 'A')) }]

/-- C9 counterexample: a changed invocation whose soft-trimmed message got
longer: `deletedTokens` is clamped at 0, so
`contextTokensBefore - deletedTokens` (20) differs from
`contextTokensAfter` (25). -/
theorem stats_deleted_tokens_cex :
    (applyPruningWithStats softGrowthMessages softGrowthConfig).changed = true ∧
      (applyPruningWithStats softGrowthMessages softGrowthConfig).stats.contextTokensBefore =
        20 ∧
      (applyPruningWithStats softGrowthMessages softGrowthConfig).stats.contextTokensAfter =
        25 ∧
      (applyPruningWithStats softGrowthMessages softGrowthConfig).stats.deletedTokens = 0 ∧
      ((applyPruningWithStats softGrowthMessages
            softGrowthConfig).stats.contextTokensBefore : ℤ) -
          (applyPruningWithStats softGrowthMessages
            softGrowthConfig).stats.deletedTokens ≠
        (applyPruningWithStats softGrowthMessages
          softGrowthConfig).stats.contextTokensAfter := by
  refine ⟨?_, ?_, ?_, ?_, ?_⟩ <;> with_unfolding_all decide

/-- C9 amended: on every invocation that reports a change,
`deletedTokens = max(0, before - after)`, so
`contextTokensBefore - deletedTokens = min(before, after)`; the claimed
equation `before - deleted = after` holds exactly when the pass did not grow
the estimate (`after ≤ before`). -/
theorem stats_deleted_tokens_clamped (messages : List Entry) (config : EasyPruningConfig)
    (h : (applyPruningWithStats messages config).changed = true) :
    ((applyPruningWithStats messages config).stats.contextTokensBefore : ℤ) -
        (applyPruningWithStats messages config).stats.deletedTokens =
      min ((applyPruningWithStats messages config).stats.contextTokensBefore : ℤ)
        ((applyPruningWithStats messages config).stats.contextTokensAfter : ℤ) ∧
      ((applyPruningWithStats messages config).stats.contextTokensAfter ≤
          (applyPruningWithStats messages config).stats.contextTokensBefore →
        ((applyPruningWithStats messages config).stats.contextTokensBefore : ℤ) -
            (applyPruningWithStats messages config).stats.deletedTokens =
          (applyPruningWithStats messages config).stats.contextTokensAfter) := by
  simp only [applyPruningWithStats] at h ⊢
  by_cases hempty : (buildMessageMeta messages).isEmpty = true
  · rw [if_pos hempty] at h
    simp at h
  · rw [if_neg hempty] at h ⊢
    by_cases hch : ((buildMessageMeta messages).foldl
        (pruneStep config (protectedIndicesOf config messages)
          (keepRecentStartTokenOf config messages)
          (resolveBoundaries config (totalTokensOf messages)).1
          (resolveBoundaries config (totalTokensOf messages)).2.1
          (resolveBoundaries config (totalTokensOf messages)).2.2)
        (messages, false,
          { contextTokensBefore := totalTokensOf messages
            contextTokensAfter := totalTokensOf messages
            deletedTokens := 0
            totalMessages := messages.length
            protectedMessages := (protectedIndicesOf config messages).length
            changedMessages := 0
            zoneChanged := ⟨0, 0, 0⟩
            zoneDeletedTokens := ⟨0, 0, 0⟩ })).2.1 = true
    · rw [if_pos hch] at h ⊢
      dsimp only
      constructor
      · omega
      · intro hle
        omega
    · rw [if_neg hch] at h
      simp at h

/-- Witness for the amended C9 at the growth fixture. -/
theorem stats_deleted_tokens_clamped_witness :
    ((applyPruningWithStats softGrowthMessages
          softGrowthConfig).stats.contextTokensBefore : ℤ) -
        (applyPruningWithStats softGrowthMessages softGrowthConfig).stats.deletedTokens =
      min ((applyPruningWithStats softGrowthMessages
            softGrowthConfig).stats.contextTokensBefore : ℤ)
        ((applyPruningWithStats softGrowthMessages
          softGrowthConfig).stats.contextTokensAfter : ℤ) :=
  (stats_deleted_tokens_clamped softGrowthMessages softGrowthConfig
    (by with_unfolding_all decide)).1

/-- Modelled from the spec (C8): the position-based reading of "the last
occurrence of any marker in the fixed ordered summary-marker list" — the
greatest position at which any marker occurs. -/
def lastOccurrenceAnyMarker (text : String) : Option ℕ :=
  (summaryMarkers.filterMap (fun mk => lastIndexOfStr text mk)).max?

/-- C8 counterexample: in `"Final Answer: a\n\nSummary: b"` the last
occurrence of any marker is `"Summary:"` at position 17, so the claimed rule
would keep `"Summary: b"`; the code instead tries the markers in list order,
finds `"Final Answer:"` first, and keeps the whole text from position 0. -/
theorem detail_marker_priority_cex :
    lastOccurrenceAnyMarker "Final Answer: a\n\nSummary: b" = some 17 ∧
      jsTrim (strDrop "Final Answer: a\n\nSummary: b" 17) = "Summary: b" ∧
      (applyDetailPruning
          { role := .vstr "tool_result", content := .vstr "Final Answer: a\n\nSummary: b" }
          defaultConfig).content =
        .vstr ("[Process details pruned]\n\nFinal Answer: a\n\nSummary: b") ∧
      (applyDetailPruning
          { role := .vstr "tool_result", content := .vstr "Final Answer: a\n\nSummary: b" }
          defaultConfig).content ≠
        .vstr ("[Process details pruned]\n\nSummary: b") := by
  refine ⟨by decide, by decide, by decide, by decide⟩

/-- A Boolean prefix yields an append decomposition. -/
theorem eq_append_of_isPrefixOf (pat : List Char) :
    ∀ (u : List Char), pat.isPrefixOf u = true → ∃ t, u = pat ++ t := by
  induction pat with
  | nil => intro u _; exact ⟨u, rfl⟩
  | cons p ps ih =>
    intro u h
    cases u with
    | nil => simp [List.isPrefixOf] at h
    | cons a as =>
      simp only [List.isPrefixOf, Bool.and_eq_true, beq_iff_eq] at h
      obtain ⟨t, ht⟩ := ih as h.2
      exact ⟨t, by rw [List.cons_append, ← ht, h.1]⟩

/-- A character that the predicate rejects survives `dropWhile`. -/
theorem mem_dropWhile_of_mem (p : Char → Bool) :
    ∀ (l : List Char) (c : Char), c ∈ l → p c = false → c ∈ l.dropWhile p := by
  intro l
  induction l with
  | nil => intro c h _; simp at h
  | cons a as ih =>
    intro c h hc
    rcases List.mem_cons.mp h with rfl | h
    · rw [List.dropWhile_cons_of_neg (by simp [hc])]
      exact List.mem_cons_self _ _
    · by_cases ha : p a = true
      · rw [List.dropWhile_cons_of_pos ha]
        exact ih c h hc
      · rw [List.dropWhile_cons_of_neg ha]
        exact List.mem_cons_of_mem _ h

/-- A list holding a non-whitespace character does not trim to empty. -/
theorem trimList_ne_nil (l : List Char) (h : ∃ c ∈ l, jsWhitespaceChar c = false) :
    trimList l ≠ [] := by
  obtain ⟨c, hc, hcw⟩ := h
  unfold trimList
  intro habs
  rw [List.reverse_eq_nil_iff, List.dropWhile_eq_nil_iff] at habs
  have h1 : c ∈ l.dropWhile jsWhitespaceChar := mem_dropWhile_of_mem _ l c hc hcw
  have h2 : c ∈ (l.dropWhile jsWhitespaceChar).reverse := List.mem_reverse.mpr h1
  have := habs c h2
  rw [hcw] at this
  exact Bool.false_ne_true this

/-- Source `lastIndexOfStr` really points at an occurrence. -/
theorem lastIndexOfStr_isPrefixOf (s pat : String) (idx : ℕ)
    (h : lastIndexOfStr s pat = some idx) :
    pat.toList.isPrefixOf (s.toList.drop idx) = true := by
  unfold lastIndexOfStr at h
  have hm := List.mem_of_mem_getLast? h
  exact (List.mem_filter.mp hm).2

/-- The trimmed tail sliced at a marker occurrence is non-empty whenever the
marker holds a non-whitespace character. -/
theorem jsTrim_drop_ne_empty (s pat : String) (idx : ℕ)
    (hocc : lastIndexOfStr s pat = some idx)
    (hpat : pat.toList.any (fun c => !jsWhitespaceChar c) = true) :
    jsTrim (strDrop s idx) ≠ "" := by
  have hpre := lastIndexOfStr_isPrefixOf s pat idx hocc
  obtain ⟨t, ht⟩ := eq_append_of_isPrefixOf pat.toList (s.toList.drop idx) hpre
  obtain ⟨c, hc, hcw⟩ := List.any_eq_true.mp hpat
  have hcw' : jsWhitespaceChar c = false := by
    cases hw : jsWhitespaceChar c
    · rfl
    · rw [hw] at hcw; exact absurd hcw (by simp)
  have hmem : c ∈ s.toList.drop idx := by
    rw [ht]
    exact List.mem_append_left t hc
  have hne := trimList_ne_nil (s.toList.drop idx) ⟨c, hmem, hcw'⟩
  unfold jsTrim strDrop
  intro habs
  apply hne
  have : (String.mk (trimList (String.mk (s.toList.drop idx)).toList)).toList = ("" : String).toList := by
    rw [habs]
  simpa using this

/-- The marker loop agrees with the first-occurring-marker-in-order rule,
for marker lists whose entries all hold a non-whitespace character. -/
theorem findMarkerSummary_eq (text : String) :
    ∀ (mks : List String),
      (∀ mk ∈ mks, mk.toList.any (fun c => !jsWhitespaceChar c) = true) →
      findMarkerSummary text mks =
        match mks.find? (fun mk => (lastIndexOfStr text mk).isSome) with
        | some mk =>
            match lastIndexOfStr text mk with
            | some idx => some (jsTrim (strDrop text idx))
            | Option.none => Option.none
        | Option.none => Option.none := by
  intro mks
  induction mks with
  | nil => intro _; rfl
  | cons mk rest ih =>
    intro hall
    cases hli : lastIndexOfStr text mk with
    | none =>
        rw [List.find?_cons_of_neg _ (by simp [hli])]
        unfold findMarkerSummary
        rw [hli]
        exact ih (fun m hm => hall m (List.mem_cons_of_mem _ hm))
    | some idx =>
        rw [List.find?_cons_of_pos _ (by simp [hli])]
        unfold findMarkerSummary
        rw [hli]
        have hne := jsTrim_drop_ne_empty text mk idx hli (hall mk (List.mem_cons_self _ _))
        have hlen : 0 < (jsTrim (strDrop text idx)).length := by
          cases hv : jsTrim (strDrop text idx) with
          | mk data =>
            cases data with
            | nil => exact absurd hv hne
            | cons a as => simp [String.length]
        simp [hlen, hli]

/-- Modelled from the spec, amended (C8): the first marker in the fixed
order that occurs anywhere wins; keep the trimmed slice from that marker's
last occurrence; with no marker, the last non-empty blank-line-delimited
paragraph; else nothing. -/
def specExtractSummary (text : String) : Option String :=
  match summaryMarkers.find? (fun mk => (lastIndexOfStr text mk).isSome) with
  | some mk =>
      match lastIndexOfStr text mk with
      | some idx => some (jsTrim (strDrop text idx))
      | Option.none => Option.none
  | Option.none =>
      (((splitOnBlankLine text).map jsTrim).filter (fun p => p ≠ "")).getLast?

/-- The source extraction agrees with the amended spec-side extraction. -/
theorem extractFinalSummary_eq_spec (text : String) :
    extractFinalSummary text = specExtractSummary text := by
  unfold extractFinalSummary specExtractSummary
  rw [findMarkerSummary_eq text summaryMarkers (by decide)]
  cases hf : summaryMarkers.find? (fun mk => (lastIndexOfStr text mk).isSome) with
  | some mk =>
      cases hli : lastIndexOfStr text mk with
      | none =>
          have := List.find?_some hf
          rw [hli] at this
          simp at this
      | some idx => simp [hli]
  | none =>
      simp only
      cases hg : (((splitOnBlankLine text).map jsTrim).filter (fun p => p ≠ "")).getLast? with
      | none => rfl
      | some last =>
          have hmem := List.mem_of_mem_getLast? hg
          have hne : last ≠ "" := by
            have := (List.mem_filter.mp hmem).2
            simpa using this
          have hlen : 0 < last.length := by
            cases hv : last with
            | mk data =>
              cases data with
              | nil => exact absurd hv hne
              | cons a as => simp [String.length]
          simp [hlen]

/-- C8 amended: detail pruning of a non-image-skipped tool-result message
keeps, after the "[Process details pruned]" prefix, the trimmed text from
the last occurrence of the first summary marker (in the fixed list order)
that occurs anywhere in the unified text; if no marker occurs, the last
non-empty blank-line-delimited paragraph; if nothing is extractable, the
placeholder — reshaped to the original content's structural kind. -/
theorem detail_pruning_summary_refinement (m : MessageLike) (config : EasyPruningConfig)
    (hrole : isToolResultRole (roleOf m) = true)
    (hskip : (config.skip_tools_with_images.jsTruthy && hasImageContent m.content) = false) :
    extractFinalSummary (toUnifiedText m.content) =
        specExtractSummary (toUnifiedText m.content) ∧
      (applyDetailPruning m config).content =
        preserveContentShape m.content
          (match specExtractSummary (toUnifiedText m.content) with
            | some s => "[Process details pruned]\n\n" ++ s
            | Option.none => config.detail_placeholder) := by
  refine ⟨extractFinalSummary_eq_spec _, ?_⟩
  have hr : roleOf m = "tool_result" ∨ roleOf m = "toolResult" := by
    simpa [isToolResultRole] using hrole
  rw [← extractFinalSummary_eq_spec]
  cases hs : extractFinalSummary (toUnifiedText m.content) with
  | some s =>
      rcases hr with h | h <;>
        simp [applyDetailPruning, applyDetailPruningO, h, isAssistantRole, isToolResultRole,
          hskip, hs]
  | none =>
      rcases hr with h | h <;>
        simp [applyDetailPruning, applyDetailPruningO, h, isAssistantRole, isToolResultRole,
          hskip, hs]

/-- Witness for the amended C8 at a concrete tool result with a marker. -/
theorem detail_pruning_summary_refinement_witness :
    (applyDetailPruning
        { role := .vstr "tool_result", content := .vstr "steps\n\nFinal Answer: done" }
        defaultConfig).content =
      preserveContentShape (JVal.vstr "steps\n\nFinal Answer: done")
        (match specExtractSummary (toUnifiedText (JVal.vstr "steps\n\nFinal Answer: done")) with
          | some s => "[Process details pruned]\n\n" ++ s
          | Option.none => defaultConfig.detail_placeholder) :=
  (detail_pruning_summary_refinement
    { role := .vstr "tool_result", content := .vstr "steps\n\nFinal Answer: done" }
    defaultConfig rfl (by decide)).2

/-! ## normalizeConfig lemmas (C4) -/

/-- Source `safePositiveInt` always yields a finite non-negative integer when the
fallback is a positive integer. -/
theorem safePositiveInt_spec (v : JVal) (d : ℚ) (hd : 0 < d) (hint : (⌊d⌋ : ℚ) = d) :
    ∃ z : ℤ, 0 ≤ z ∧ safePositiveInt v (.fin d) = .fin (z : ℚ) := by
  have hdz : ∃ z : ℤ, 0 ≤ z ∧ JNum.fin d = .fin (z : ℚ) :=
    ⟨⌊d⌋, Int.le_floor.mpr (by exact_mod_cast le_of_lt hd), by rw [hint]⟩
  cases v with
  | vnum n =>
      cases n with
      | fin q =>
          by_cases hq : q ≤ 0
          · simpa [safePositiveInt, hq] using hdz
          · refine ⟨⌊q⌋, Int.le_floor.mpr (by push_cast; linarith [not_le.mp hq]), ?_⟩
            simp [safePositiveInt, hq]
      | inf => simpa [safePositiveInt] using hdz
      | ninf => simpa [safePositiveInt] using hdz
      | nan => simpa [safePositiveInt] using hdz
  | vnull => simpa [safePositiveInt] using hdz
  | vstr s => simpa [safePositiveInt] using hdz
  | vbool b => simpa [safePositiveInt] using hdz
  | varr xs => simpa [safePositiveInt] using hdz
  | vobj fs => simpa [safePositiveInt] using hdz

/-- Source `safeNonNegativeNumber` always yields a finite non-negative number when
the fallback is one. -/
theorem safeNonNegativeNumber_spec (v : JVal) (d : ℚ) (hd : 0 ≤ d) :
    ∃ q : ℚ, 0 ≤ q ∧ safeNonNegativeNumber v (.fin d) = .fin q := by
  cases v with
  | vnum n =>
      cases n with
      | fin q =>
          by_cases hq : q < 0
          · exact ⟨d, hd, by simp [safeNonNegativeNumber, hq]⟩
          · exact ⟨q, not_lt.mp hq, by simp [safeNonNegativeNumber, hq]⟩
      | inf => exact ⟨d, hd, by simp [safeNonNegativeNumber]⟩
      | ninf => exact ⟨d, hd, by simp [safeNonNegativeNumber]⟩
      | nan => exact ⟨d, hd, by simp [safeNonNegativeNumber]⟩
  | vnull => exact ⟨d, hd, by simp [safeNonNegativeNumber]⟩
  | vstr s => exact ⟨d, hd, by simp [safeNonNegativeNumber]⟩
  | vbool b => exact ⟨d, hd, by simp [safeNonNegativeNumber]⟩
  | varr xs => exact ⟨d, hd, by simp [safeNonNegativeNumber]⟩
  | vobj fs => exact ⟨d, hd, by simp [safeNonNegativeNumber]⟩

/-- Re-sanitizing a `safePositiveInt` result is the identity, provided the
first pass did not produce 0 (a fractional input in `(0, 1)` floors to 0 and
would fall back to the default on the second pass). -/
theorem safePositiveInt_idem (v : JVal) (d : ℚ) (hd : 0 < d) (hint : (⌊d⌋ : ℚ) = d)
    (h : safePositiveInt v (.fin d) ≠ .fin 0) :
    safePositiveInt (.vnum (safePositiveInt v (.fin d))) (.fin d) =
      safePositiveInt v (.fin d) := by
  have hdcase : safePositiveInt (.vnum (.fin d)) (.fin d) = .fin d := by
    simp [safePositiveInt, not_le.mpr hd, hint]
  cases v with
  | vnum n =>
      cases n with
      | fin q =>
          by_cases hq : q ≤ 0
          · rw [show safePositiveInt (.vnum (.fin q)) (.fin d) = .fin d by
              simp [safePositiveInt, hq]]
            exact hdcase
          · rw [show safePositiveInt (.vnum (.fin q)) (.fin d) = .fin ((⌊q⌋ : ℤ) : ℚ) by
              simp [safePositiveInt, hq]] at h ⊢
            have hfl : 0 ≤ ⌊q⌋ := Int.le_floor.mpr (by push_cast; linarith [not_le.mp hq])
            have hne : (⌊q⌋ : ℤ) ≠ 0 := by
              intro habs
              exact h (by rw [habs]; norm_num)
            have hpos : (0 : ℚ) < ((⌊q⌋ : ℤ) : ℚ) := by
              have : 0 < ⌊q⌋ := lt_of_le_of_ne hfl (Ne.symm hne)
              exact_mod_cast this
            simp [safePositiveInt, not_le.mpr hpos, Int.floor_intCast]
      | inf => rw [show safePositiveInt (.vnum .inf) (.fin d) = .fin d from rfl]; exact hdcase
      | ninf => rw [show safePositiveInt (.vnum .ninf) (.fin d) = .fin d from rfl]; exact hdcase
      | nan => rw [show safePositiveInt (.vnum .nan) (.fin d) = .fin d from rfl]; exact hdcase
  | vnull => rw [show safePositiveInt .vnull (.fin d) = .fin d from rfl]; exact hdcase
  | vstr s => rw [show safePositiveInt (.vstr s) (.fin d) = .fin d from rfl]; exact hdcase
  | vbool b => rw [show safePositiveInt (.vbool b) (.fin d) = .fin d from rfl]; exact hdcase
  | varr xs => rw [show safePositiveInt (.varr xs) (.fin d) = .fin d from rfl]; exact hdcase
  | vobj fs => rw [show safePositiveInt (.vobj fs) (.fin d) = .fin d from rfl]; exact hdcase

/-- Re-sanitizing a `safeNonNegativeNumber` result is always the identity
when the fallback is non-negative. -/
theorem safeNonNegativeNumber_idem (v : JVal) (d : ℚ) (hd : 0 ≤ d) :
    safeNonNegativeNumber (.vnum (safeNonNegativeNumber v (.fin d))) (.fin d) =
      safeNonNegativeNumber v (.fin d) := by
  have hdcase : safeNonNegativeNumber (.vnum (.fin d)) (.fin d) = .fin d := by
    simp [safeNonNegativeNumber, not_lt.mpr hd]
  cases v with
  | vnum n =>
      cases n with
      | fin q =>
          by_cases hq : q < 0
          · rw [show safeNonNegativeNumber (.vnum (.fin q)) (.fin d) = .fin d by
              simp [safeNonNegativeNumber, hq]]
            exact hdcase
          · rw [show safeNonNegativeNumber (.vnum (.fin q)) (.fin d) = .fin q by
              simp [safeNonNegativeNumber, hq]]
            simp [safeNonNegativeNumber, hq]
      | inf => rw [show safeNonNegativeNumber (.vnum .inf) (.fin d) = .fin d from rfl]
               exact hdcase
      | ninf => rw [show safeNonNegativeNumber (.vnum .ninf) (.fin d) = .fin d from rfl]
                exact hdcase
      | nan => rw [show safeNonNegativeNumber (.vnum .nan) (.fin d) = .fin d from rfl]
               exact hdcase
  | vnull => rw [show safeNonNegativeNumber .vnull (.fin d) = .fin d from rfl]; exact hdcase
  | vstr s => rw [show safeNonNegativeNumber (.vstr s) (.fin d) = .fin d from rfl]; exact hdcase
  | vbool b => rw [show safeNonNegativeNumber (.vbool b) (.fin d) = .fin d from rfl]
               exact hdcase
  | varr xs => rw [show safeNonNegativeNumber (.varr xs) (.fin d) = .fin d from rfl]
               exact hdcase
  | vobj fs => rw [show safeNonNegativeNumber (.vobj fs) (.fin d) = .fin d from rfl]
               exact hdcase

/-- Source `Math.max(0, Math.floor(·))` is idempotent (including on NaN and the
infinities, which it propagates). -/
theorem jmax0_jfloor_idem (x : JNum) :
    JNum.jmax (.fin 0) (JNum.jfloor (JNum.jmax (.fin 0) (JNum.jfloor x))) =
      JNum.jmax (.fin 0) (JNum.jfloor x) := by
  cases x with
  | fin q =>
      simp only [JNum.jfloor, JNum.jmax]
      rw [show ((0 : ℚ) ⊔ ((⌊q⌋ : ℤ) : ℚ)) = (((0 ⊔ ⌊q⌋ : ℤ) : ℤ) : ℚ) by push_cast; rfl]
      rw [Int.floor_intCast]
      congr 1
      push_cast
      rw [← max_assoc, max_self]
  | inf => rfl
  | ninf =>
      simp only [JNum.jfloor, JNum.jmax]
      norm_num
  | nan => rfl

/-- A non-empty placeholder string survives re-normalization. -/
theorem stringOrDefault_idem (s d : String) (h : s ≠ "") :
    stringOrDefault (.vstr s) d = s := by
  simp [stringOrDefault, JVal.jsTruthy, jsToString, h]

/-- C4 amended: `normalizeConfig` (a total function) sanitizes every numeric
field except `keep_recent_messages` — the `safePositiveInt` fields come out
as finite non-negative integers and the threshold fields as finite
non-negative numbers — while `keep_recent_messages` is
`Math.max(0, Math.floor(input))`, which propagates NaN and Infinity; and
re-normalizing its output is the identity provided the positive-integer
fields of the output are non-zero (a fractional input in `(0,1)` floors to
0, which a second pass replaces by the default) and the placeholder strings
are non-empty. -/
theorem normalizeConfig_sanitizes_and_conditionally_idempotent (raw : RawConfig)
    (hpt : (normalizeConfig defaultConfig (some raw)).pruning_threshold ≠ .fin 0)
    (htr : (normalizeConfig defaultConfig (some raw)).trigger_every_n_tokens ≠ .fin 0)
    (hkt : (normalizeConfig defaultConfig (some raw)).keep_recent_tokens ≠ .fin 0)
    (hmx : (normalizeConfig defaultConfig (some raw)).soft_trim.max_chars ≠ .fin 0)
    (hhd : (normalizeConfig defaultConfig (some raw)).soft_trim.head_chars ≠ .fin 0)
    (htl : (normalizeConfig defaultConfig (some raw)).soft_trim.tail_chars ≠ .fin 0)
    (hph : (normalizeConfig defaultConfig (some raw)).hard_clear_placeholder ≠ "")
    (hpd : (normalizeConfig defaultConfig (some raw)).detail_placeholder ≠ "") :
    normalizeConfig defaultConfig (some (toRaw (normalizeConfig defaultConfig (some raw)))) =
        normalizeConfig defaultConfig (some raw) ∧
      (∃ z : ℤ, 0 ≤ z ∧
        (normalizeConfig defaultConfig (some raw)).pruning_threshold = .fin z) ∧
      (∃ z : ℤ, 0 ≤ z ∧
        (normalizeConfig defaultConfig (some raw)).trigger_every_n_tokens = .fin z) ∧
      (∃ z : ℤ, 0 ≤ z ∧
        (normalizeConfig defaultConfig (some raw)).keep_recent_tokens = .fin z) ∧
      (∃ z : ℤ, 0 ≤ z ∧
        (normalizeConfig defaultConfig (some raw)).soft_trim.max_chars = .fin z) ∧
      (∃ z : ℤ, 0 ≤ z ∧
        (normalizeConfig defaultConfig (some raw)).soft_trim.head_chars = .fin z) ∧
      (∃ z : ℤ, 0 ≤ z ∧
        (normalizeConfig defaultConfig (some raw)).soft_trim.tail_chars = .fin z) ∧
      (∃ q : ℚ, 0 ≤ q ∧
        (normalizeConfig defaultConfig (some raw)).soft_threshold = .fin q) ∧
      (∃ q : ℚ, 0 ≤ q ∧
        (normalizeConfig defaultConfig (some raw)).hard_threshold = .fin q) ∧
      (∃ q : ℚ, 0 ≤ q ∧
        (normalizeConfig defaultConfig (some raw)).detail_threshold = .fin q) ∧
      (normalizeConfig defaultConfig (some raw)).keep_recent_messages =
        JNum.jmax (.fin 0) (JNum.jfloor
          (match raw.keep_recent_messages with
            | some (.vnum n) => n
            | _ =>
              match raw.keep_rencent_message with
              | some (.vnum n) => n
              | _ => defaultConfig.keep_recent_messages)) := by
  simp only [normalizeConfig, spreadVal, Option.getD_some, defaultConfig] at hpt htr hkt hmx hhd htl hph hpd ⊢
  refine ⟨?_, ?_, ?_, ?_, ?_, ?_, ?_, ?_, ?_, ?_, trivial⟩
  · simp only [EasyPruningConfig.mk.injEq, SoftTrimConfig.mk.injEq]
    refine ⟨?_, ?_, ?_, ?_, ?_, ?_, ?_, ?_, ⟨?_, ?_, ?_⟩, ?_, ?_, rfl, ?_⟩
    · exact safePositiveInt_idem _ 80000 (by norm_num) (by norm_num) hpt
    · exact safePositiveInt_idem _ 5000 (by norm_num) (by norm_num) htr
    · exact safePositiveInt_idem _ 10000 (by norm_num) (by norm_num) hkt
    · exact jmax0_jfloor_idem _
    · cases raw.keep_rencent_message <;> rfl
    · exact safeNonNegativeNumber_idem _ (7 / 10) (by norm_num)
    · exact safeNonNegativeNumber_idem _ (85 / 100) (by norm_num)
    · exact safeNonNegativeNumber_idem _ (95 / 100) (by norm_num)
    · exact safePositiveInt_idem _ 4000 (by norm_num) (by norm_num) hmx
    · exact safePositiveInt_idem _ 1500 (by norm_num) (by norm_num) hhd
    · exact safePositiveInt_idem _ 1500 (by norm_num) (by norm_num) htl
    · exact stringOrDefault_idem _ _ hph
    · exact stringOrDefault_idem _ _ hpd
    · cases raw.compaction_threshold_hint <;> rfl
  · exact safePositiveInt_spec _ 80000 (by norm_num) (by norm_num)
  · exact safePositiveInt_spec _ 5000 (by norm_num) (by norm_num)
  · exact safePositiveInt_spec _ 10000 (by norm_num) (by norm_num)
  · exact safePositiveInt_spec _ 4000 (by norm_num) (by norm_num)
  · exact safePositiveInt_spec _ 1500 (by norm_num) (by norm_num)
  · exact safePositiveInt_spec _ 1500 (by norm_num) (by norm_num)
  · exact safeNonNegativeNumber_spec _ (7 / 10) (by norm_num)
  · exact safeNonNegativeNumber_spec _ (85 / 100) (by norm_num)
  · exact safeNonNegativeNumber_spec _ (95 / 100) (by norm_num)

set_option maxRecDepth 4000 in
/-- C4 counterexample: a fractional `pruning_threshold` of 0.5 floors to 0,
and re-normalizing replaces the 0 by the default 80000, so normalization is
not idempotent ("normalizing an already-normalized config" changes it); and
a NaN `keep_recent_messages` propagates (the field is not sanitized to a
safe value). -/
theorem normalizeConfig_not_idempotent_cex :
    (normalizeConfig defaultConfig
        (some { pruning_threshold := some (.vnum (.fin (1 / 2))) })).pruning_threshold =
      .fin 0 ∧
      (normalizeConfig defaultConfig (some (toRaw (normalizeConfig defaultConfig
          (some { pruning_threshold := some (.vnum (.fin (1 / 2))) }))))).pruning_threshold =
        .fin 80000 ∧
      normalizeConfig defaultConfig (some (toRaw (normalizeConfig defaultConfig
          (some { pruning_threshold := some (.vnum (.fin (1 / 2))) })))) ≠
        normalizeConfig defaultConfig
          (some { pruning_threshold := some (.vnum (.fin (1 / 2))) }) ∧
      (normalizeConfig defaultConfig
          (some { keep_recent_messages := some (.vnum .nan) })).keep_recent_messages =
        .nan := by
  have hc1 : normalizeConfig defaultConfig
      (some { pruning_threshold := some (.vnum (.fin (1 / 2))) }) =
      { pruning_threshold := .fin 0
        trigger_every_n_tokens := .fin 5000
        keep_recent_tokens := .fin 10000
        keep_recent_messages := .fin 10
        soft_threshold := .fin (7 / 10)
        hard_threshold := .fin (85 / 100)
        detail_threshold := .fin (95 / 100)
        soft_trim := { max_chars := .fin 4000, head_chars := .fin 1500,
                       tail_chars := .fin 1500 }
        hard_clear_placeholder := "[Old tool result content cleared]"
        detail_placeholder := "[Detailed execution context pruned to save tokens]"
        skip_tools_with_images := .vbool true } := by
    norm_num [normalizeConfig, spreadVal, defaultConfig, safePositiveInt,
      safeNonNegativeNumber, stringOrDefault, JVal.jsTruthy, jsToString, JNum.jmax,
      JNum.jfloor, Option.getD_some]
  have h1 : (normalizeConfig defaultConfig
      (some { pruning_threshold := some (.vnum (.fin (1 / 2))) })).pruning_threshold =
      .fin 0 := by rw [hc1]
  have h2 : (normalizeConfig defaultConfig (some (toRaw (normalizeConfig defaultConfig
      (some { pruning_threshold := some (.vnum (.fin (1 / 2))) }))))).pruning_threshold =
      .fin 80000 := by
    rw [hc1]
    norm_num [normalizeConfig, toRaw, spreadVal, defaultConfig, safePositiveInt,
      Option.getD_some]
  refine ⟨h1, h2, fun habs => ?_, ?_⟩
  · have hfield := congrArg EasyPruningConfig.pruning_threshold habs
    rw [h1, h2] at hfield
    have := JNum.fin.inj hfield
    norm_num at this
  · norm_num [normalizeConfig, spreadVal, defaultConfig, JNum.jmax, JNum.jfloor]

set_option maxRecDepth 4000 in
/-- Witness for the amended C4: re-normalizing the normalization of the
empty raw config is the identity. -/
theorem normalizeConfig_sanitizes_witness :
    normalizeConfig defaultConfig (some (toRaw (normalizeConfig defaultConfig
        (some ({} : RawConfig))))) = normalizeConfig defaultConfig (some ({} : RawConfig)) :=
  (normalizeConfig_sanitizes_and_conditionally_idempotent {}
    (by norm_num [normalizeConfig, spreadVal, defaultConfig, safePositiveInt])
    (by norm_num [normalizeConfig, spreadVal, defaultConfig, safePositiveInt])
    (by norm_num [normalizeConfig, spreadVal, defaultConfig, safePositiveInt])
    (by norm_num [normalizeConfig, spreadVal, defaultConfig, safePositiveInt])
    (by norm_num [normalizeConfig, spreadVal, defaultConfig, safePositiveInt])
    (by norm_num [normalizeConfig, spreadVal, defaultConfig, safePositiveInt])
    (by
      norm_num [normalizeConfig, spreadVal, defaultConfig, stringOrDefault,
        JVal.jsTruthy, jsToString]
      decide)
    (by
      norm_num [normalizeConfig, spreadVal, defaultConfig, stringOrDefault,
        JVal.jsTruthy, jsToString]
      decide)).1
